import Mathlib

/-!
Shallow embedding of `story_feature_policy_report.py` (zimeon/jira-tools).

The script ingests Jira issues, normalizes their text fields, reconciles
priorities across the reliance-link graph in two passes, aggregates effort
estimates, and emits a grouped TeX report.  We embed the data model and the
pure computational content of the script: Python dicts become association
lists, in-place mutation becomes explicit state passing, `print` diagnostics
become an explicit event list, and raised exceptions become `Except.error`.
Floats are modelled as rationals (the concrete literals appearing in the
script are exact in both representations).
-/

namespace JiraTools

/-- Priority tiers; `PRIORITY_TO_VALUE = {'Critical': 3, 'Major': 2, 'Low': 1}`. -/
inductive Priority where
  | Low
  | Major
  | Critical
deriving DecidableEq, Repr

/-- The numeric value of a priority (`PRIORITY_TO_VALUE`). -/
def PRIORITY_TO_VALUE : Priority → Nat
  | .Low => 1
  | .Major => 2
  | .Critical => 3

/-- Priorities sorted highest value first (`PRIORITIES`). -/
def PRIORITIES : List Priority := [.Critical, .Major, .Low]

/-- One issue record (`args` dict) after ingestion.  Only the fields the
reconciliation, grouping and effort phases read are modelled.  `issuelinks`
models the Python dict from link-type name to target-key list (insertion
ordered, unique keys); `days` models the optional `args['days']` effort
estimate; `epic_name` the resolved epic name of a user story. -/
structure Issue where
  key : String
  priority : Priority
  issuelinks : List (String × List String) := []
  epic_name : String := ""
  days : Option ℚ := none
deriving DecidableEq, Repr

/-- Diagnostics the script prints while reconciling; each constructor is one
`print`/`logging` call site, carrying the data interpolated into the message. -/
inductive Event where
  /-- `"Non-story %s linked from %s, link ignored"` in `add_story_epics`. -/
  | nonStoryLink (target issueKey : String)
  /-- `"Issue %s is not relied upon by any issue"` / `"Issue %s does not rely
  on any feature or policy"`. -/
  | noDependents (key : String)
  /-- `"No priority calculated for %s, treating as Low"`. -/
  | noPriority (key : String)
  /-- `"INCONSISTENCY: ..."` with the actual and inferred priorities. -/
  | inconsistency (key : String) (actual inferred : Priority)
  /-- `"%s priority changed %s -> %s"` / `"Setting %s to priority %s"`. -/
  | changed (key : String) (oldPr newPr : Priority)
  /-- the informational `"... higher/lower than inferred priority ..."` note. -/
  | note (key : String) (actual inferred : Priority)
deriving DecidableEq, Repr

/-! ### Association lists modelling Python dicts -/

/-- Dict lookup `d[k]` (`none` models `KeyError`/`k not in d`). -/
def alGet {α : Type} (d : List (String × α)) (k : String) : Option α :=
  match d.find? (fun kv => kv.1 == k) with
  | some kv => some kv.2
  | none => none

/-- Dict store `d[k] = v`: replaces the value in place if the key is present,
else appends the binding (Python dicts keep insertion order). -/
def alSet {α : Type} (d : List (String × α)) (k : String) (v : α) :
    List (String × α) :=
  match d with
  | [] => [(k, v)]
  | kv :: rest => if kv.1 == k then (k, v) :: rest else kv :: alSet rest k v

/-- Lookup helper `get_issue(issues, target)`; `none` models the raised
`Exception("Cannot find %s in %s")`. -/
def get_issue (issues : List Issue) (target : String) : Option Issue :=
  issues.find? (fun t => t.key == target)

/-! ### Pass 1: `infer_feature_policy_priorities` -/

/-- The running-maximum loop of pass 1 over one issue's link targets: `acc`
is the local `priority` variable (`none` before the first target); each
target is looked up with `get_issue` (a failed lookup raises, modelled as
`Except.error target`) and the higher priority is kept. -/
def scanMax (pool : List Issue) (acc : Option Priority) :
    List String → Except String (Option Priority)
  | [] => .ok acc
  | target :: rest =>
    match get_issue pool target with
    | none => .error target
    | some t =>
      match acc with
      | none => scanMax pool (some t.priority) rest
      | some pr =>
        if PRIORITY_TO_VALUE t.priority > PRIORITY_TO_VALUE pr then
          scanMax pool (some t.priority) rest
        else
          scanMax pool (some pr) rest

/-- The inferred pass-1 priority of an issue with the given link targets. -/
def inferMax (pool : List Issue) (targets : List String) :
    Except String (Option Priority) :=
  scanMax pool none targets

/-- The tail of the pass-1 loop body, after the inferred priority has been
computed (`ev0` carries the "not relied upon by any issue" report when the
link type was absent): compare, report and (when `modify`) rewrite. -/
def inferCompare (modify : Bool) (issue : Issue) (ev0 : List Event) :
    Option Priority → Issue × List Event
  | none =>
      -- "No priority calculated ..., treating as Low"; the local variable is
      -- set to Low but the issue itself is left untouched.
      (issue, ev0 ++ [Event.noPriority issue.key])
  | some p =>
      if PRIORITY_TO_VALUE issue.priority < PRIORITY_TO_VALUE p then
        if modify then
          ({ issue with priority := p },
            ev0 ++ [Event.inconsistency issue.key issue.priority p,
                    Event.changed issue.key issue.priority p])
        else
          (issue, ev0 ++ [Event.inconsistency issue.key issue.priority p])
      else if PRIORITY_TO_VALUE issue.priority > PRIORITY_TO_VALUE p then
        (issue, ev0 ++ [Event.note issue.key issue.priority p])
      else
        (issue, ev0)

/-- Propagate a raised lookup exception out of the pass-1 loop body, or hand
the inferred priority over to the comparison. -/
def inferFromMax (modify : Bool) (issue : Issue) :
    Except String (Option Priority) → Except String (Issue × List Event)
  | .error e => .error e
  | .ok pr0 => .ok (inferCompare modify issue [] pr0)

/-- Loop body of `infer_feature_policy_priorities` for one issue of `fp`. -/
def inferStep (pool : List Issue) (modify : Bool) (issue : Issue) :
    Except String (Issue × List Event) :=
  match alGet issue.issuelinks "Is relied upon by" with
  | some targets => inferFromMax modify issue (inferMax pool targets)
  | none => .ok (inferCompare modify issue [Event.noDependents issue.key] none)

/-- Combine one loop iteration's outcome with the rest of a pass: the first
raised exception aborts the pass. -/
def passCons :
    Except String (Issue × List Event) → Except String (List Issue × List Event) →
      Except String (List Issue × List Event)
  | .error e, _ => .error e
  | .ok _, .error e => .error e
  | .ok (i', ev), .ok (rest', evs) => .ok (i' :: rest', ev ++ evs)

/-- Sequential loop over the issues of a pass, threading the updated list and
the printed events. -/
def runPass (step : Issue → Except String (Issue × List Event)) :
    List Issue → Except String (List Issue × List Event)
  | [] => .ok ([], [])
  | i :: rest => passCons (step i) (runPass step rest)

/-- `infer_feature_policy_priorities(user_stories, other, fp, modify=True)`:
pass 1 of the reconciliation engine.  The priority of each issue in `fp` is
inferred as the highest priority of the issues its `'Is relied upon by'`
links resolve to in `user_stories + other`; an under-prioritized issue is
reported and (when `modify`) rewritten.  In the source `fp` is mutated in
place; `fp` and the lookup pool are disjoint at both call sites, so the pass
is modelled as threading the updated list alongside the printed events. -/
def infer_feature_policy_priorities (user_stories other fp : List Issue)
    (modify : Bool := true) : Except String (List Issue × List Event) :=
  runPass (inferStep (user_stories ++ other) modify) fp

/-! ### Pass 2: `check_story_priorities` -/

/-- The running-minimum loop of pass 2 (same shape as `scanMax` with the
comparison reversed). -/
def scanMin (pool : List Issue) (acc : Option Priority) :
    List String → Except String (Option Priority)
  | [] => .ok acc
  | target :: rest =>
    match get_issue pool target with
    | none => .error target
    | some t =>
      match acc with
      | none => scanMin pool (some t.priority) rest
      | some pr =>
        if PRIORITY_TO_VALUE t.priority < PRIORITY_TO_VALUE pr then
          scanMin pool (some t.priority) rest
        else
          scanMin pool (some pr) rest

/-- The inferred pass-2 priority of a story with the given link targets. -/
def checkMin (pool : List Issue) (targets : List String) :
    Except String (Option Priority) :=
  scanMin pool none targets

/-- The tail of the pass-2 loop body: inconsistency when the story's priority
is higher than inferred (rewritten only when `modify`), note when lower. -/
def checkCompare (modify : Bool) (issue : Issue) (ev0 : List Event) :
    Option Priority → Issue × List Event
  | none =>
      (issue, ev0 ++ [Event.noPriority issue.key])
  | some p =>
      if PRIORITY_TO_VALUE issue.priority > PRIORITY_TO_VALUE p then
        if modify then
          ({ issue with priority := p },
            ev0 ++ [Event.inconsistency issue.key issue.priority p,
                    Event.changed issue.key issue.priority p])
        else
          (issue, ev0 ++ [Event.inconsistency issue.key issue.priority p])
      else if PRIORITY_TO_VALUE issue.priority < PRIORITY_TO_VALUE p then
        (issue, ev0 ++ [Event.note issue.key issue.priority p])
      else
        (issue, ev0)

/-- Propagate a raised lookup exception out of the pass-2 loop body, or hand
the inferred priority over to the comparison. -/
def checkFromMin (modify : Bool) (issue : Issue) :
    Except String (Option Priority) → Except String (Issue × List Event)
  | .error e => .error e
  | .ok pr0 => .ok (checkCompare modify issue [] pr0)

/-- Loop body of `check_story_priorities` for one user story. -/
def checkStep (pool : List Issue) (modify : Bool) (issue : Issue) :
    Except String (Issue × List Event) :=
  match alGet issue.issuelinks "Relies on" with
  | some targets => checkFromMin modify issue (checkMin pool targets)
  | none => .ok (checkCompare modify issue [Event.noDependents issue.key] none)

/-- `check_story_priorities(features, policies, user_stories, modify=False)`:
pass 2, the backwards sanity check over user stories. -/
def check_story_priorities (features policies user_stories : List Issue)
    (modify : Bool := false) : Except String (List Issue × List Event) :=
  runPass (checkStep (features ++ policies) modify) user_stories

/-! ### Graph assembly: `add_story_epics` -/

/-- The `user_stories_by_key` dict built at module level:
`for issue in user_stories: user_stories_by_key[issue['key']] = issue`. -/
def buildByKey (user_stories : List Issue) : List (String × Issue) :=
  user_stories.foldl (fun d issue => alSet d issue.key issue) []

/-- A deduplicating append modelling `set.add` on `epic_names`.  Python's set
iteration order is unspecified; we fix the deterministic insertion order,
which no verified property depends on. -/
def insertName (names : List String) (name : String) : List String :=
  if name ∈ names then names else names ++ [name]

/-- The epic names collected while walking the kept targets, in insertion
order (`epic_names.add(story['epic_name'])`). -/
def epicNamesOf (sbk : List (String × Issue)) (keep : List String) :
    List String :=
  keep.foldl
    (fun ns t =>
      match alGet sbk t with
      | some story => insertName ns story.epic_name
      | none => ns)
    []

/-- The `'Is relied upon by'` targets kept by `add_story_epics`: those that
resolve in `user_stories_by_key` (`keep` in the source loop, in order). -/
def epicKeep (sbk : List (String × Issue)) (ts : List String) : List String :=
  ts.filter (fun t => (alGet sbk t).isSome)

/-- The targets dropped by `add_story_epics` (each reported with a warning). -/
def epicDropped (sbk : List (String × Issue)) (ts : List String) : List String :=
  ts.filter (fun t => !(alGet sbk t).isSome)

/-- The link dict after `add_story_epics` processed one issue: the
`'Is relied upon by'` list replaced by the keepers and the derived
`'User story groups'` entry stored. -/
def epicLinks (sbk : List (String × Issue)) (links : List (String × List String))
    (ts : List String) : List (String × List String) :=
  alSet (alSet links "Is relied upon by" (epicKeep sbk ts))
    "User story groups" (epicNamesOf sbk (epicKeep sbk ts))

/-- Loop body of `add_story_epics` for one feature/policy: split the
`'Is relied upon by'` targets into the kept known user stories and the
dropped rest, collect the epic names of the kept stories, store the filtered
list back and the derived `'User story groups'` link.  The source
interleaves the three in one loop; as the three outputs are independent this
is modelled by the filters plus the name fold. -/
def epicStep (sbk : List (String × Issue)) (issue : Issue) :
    Issue × List Event :=
  if issue.issuelinks ≠ [] ∧ (alGet issue.issuelinks "Is relied upon by").isSome then
    let targets := (alGet issue.issuelinks "Is relied upon by").getD []
    ({ issue with issuelinks := epicLinks sbk issue.issuelinks targets },
      (epicDropped sbk targets).map (fun t => Event.nonStoryLink t issue.key))
  else
    ({ issue with issuelinks := alSet issue.issuelinks "User story groups" [] },
      [])

/-- `add_story_epics(issues, user_stories_by_key)`: in-place enrichment of
each feature/policy, modelled as a map. -/
def add_story_epics (issues : List Issue)
    (user_stories_by_key : List (String × Issue)) : List Issue × List Event :=
  let results := issues.map (epicStep user_stories_by_key)
  (results.map Prod.fst, (results.map Prod.snd).flatten)

/-! ### The module-level reconciliation pipeline -/

/-- Tail of the pipeline after both inference passes: run the story check
and assemble the reconciled collections with the accumulated events. -/
def reconcileAfterP (features2 policies2 : List Issue) (ev : List Event) :
    Except String (List Issue × List Event) →
      Except String ((List Issue × List Issue × List Issue) × List Event)
  | .error e => .error e
  | .ok sr => .ok ((features2, policies2, sr.1), ev ++ sr.2)

/-- Tail of the pipeline after the feature inference pass: run the policy
inference, then continue. -/
def reconcileAfterF (user_stories features2 : List Issue)
    (ev : List Event) :
    Except String (List Issue × List Event) →
      Except String ((List Issue × List Issue × List Issue) × List Event)
  | .error e => .error e
  | .ok pr =>
      reconcileAfterP features2 pr.1 (ev ++ pr.2)
        (check_story_priorities features2 pr.1 user_stories false)

/-- Head of the pipeline continuation: receive the feature inference outcome,
then run the policy inference with the updated features in the lookup pool. -/
def reconcileAfterE (user_stories policies1 : List Issue) (ev : List Event) :
    Except String (List Issue × List Event) →
      Except String ((List Issue × List Issue × List Issue) × List Event)
  | .error e => .error e
  | .ok fr =>
      reconcileAfterF user_stories fr.1 (ev ++ fr.2)
        (infer_feature_policy_priorities user_stories fr.1 policies1 true)

/-- The priority-affecting portion of the module-level pipeline, in source
order: build `user_stories_by_key`, run `add_story_epics` over features and
policies, infer feature priorities, infer policy priorities (with the already
updated features as the extra lookup pool), then check story priorities with
the default non-modifying policy.  A raised exception anywhere aborts the
run. -/
def reconcile (features policies user_stories : List Issue) :
    Except String ((List Issue × List Issue × List Issue) × List Event) :=
  let sbk := buildByKey user_stories
  let fe := add_story_epics features sbk
  let pe := add_story_epics policies sbk
  reconcileAfterE user_stories pe.1 (fe.2 ++ pe.2)
    (infer_feature_policy_priorities user_stories [] fe.1 true)

/-! ### Issue numbers: `issue_number` / `key_number` -/

/-- ASCII test for the regex class `[A-Z]`. -/
def isUpperAZ (c : Char) : Bool := 'A' ≤ c && c ≤ 'Z'

/-- ASCII test for the regex class `\d`. -/
def isDigit09 (c : Char) : Bool := '0' ≤ c && c ≤ '9'

/-- Decimal value of a digit string (`int(m.group(1))`). -/
def digitsToNat (ds : List Char) : Nat :=
  ds.foldl (fun n c => 10 * n + (c.toNat - '0'.toNat)) 0

/-- `key_number(key)`: `re.match(r'[A-Z]+\-(\d+)', key)` anchored at the
start, returning the captured number, or `0` when the match fails. -/
def key_number (key : String) : Nat :=
  let s := key.data
  let us := s.takeWhile isUpperAZ
  if us.isEmpty then 0
  else
    match s.drop us.length with
    | '-' :: r =>
      let ds := r.takeWhile isDigit09
      if ds.isEmpty then 0 else digitsToNat ds
    | _ => 0

/-- `issue_number(issue)`: the number extracted from `issue['key']`. -/
def issue_number (issue : Issue) : Nat := key_number issue.key

/-! ### Grouping and ordering of the report body

Python's `sorted` is a stable sort; it is modelled by a stable insertion
sort, which produces the same list for any total transitive comparison. -/

/-- Insert `a` before the first element `b` with `le a b` (so an element
arriving from further left in the input stays left of equal elements). -/
def insertBy {α : Type} (le : α → α → Bool) (a : α) : List α → List α
  | [] => [a]
  | b :: bs => if le a b then a :: b :: bs else b :: insertBy le a bs

/-- Stable insertion sort modelling Python `sorted(..., key=...)`. -/
def sortBy {α : Type} (le : α → α → Bool) : List α → List α
  | [] => []
  | a :: rest => insertBy le a (sortBy le rest)

/-- One priority group of the features (or policies) report: the issues of
that priority, in ascending `issue_number` order
(`for issue in sorted(features, key=issue_number): if issue['priority'] == priority`). -/
def prioritySection (issues : List Issue) (p : Priority) : List Issue :=
  (sortBy (fun a b => decide (issue_number a ≤ issue_number b)) issues).filter
    (fun i => decide (i.priority = p))

/-- The grouped features (or policies) report body: one group per priority,
highest first (`for priority in PRIORITIES`). -/
def priority_sections (issues : List Issue) : List (Priority × List Issue) :=
  PRIORITIES.map (fun p => (p, prioritySection issues p))

/-- The composite sort key of the user-story report:
`(4 - PRIORITY_TO_VALUE[i['priority']]) * 10000 + issue_number(i)`. -/
def story_sort_key (i : Issue) : Nat :=
  (4 - PRIORITY_TO_VALUE i.priority) * 10000 + issue_number i

/-- Lexicographic comparison of character lists by code point, which is how
Python compares the epic-name strings in `sorted(...)`. -/
def charListLe : List Char → List Char → Bool
  | [], _ => true
  | _ :: _, [] => false
  | a :: as, b :: bs => if a < b then true else if a = b then charListLe as bs else false

/-- Lexicographic string comparison by code point. -/
def strLe (a b : String) : Bool := charListLe a.data b.data

/-- The contents of `set(...)` as a deduplicated list (first occurrences, in
order; the order is irrelevant because the result is then sorted). -/
def setList (l : List String) : List String := l.foldl insertName []

/-- The epic names under which user stories are reported:
`sorted(set(issue['epic_name'] for issue in user_stories))`, i.e. the
distinct names in lexicographic order. -/
def epic_names_sorted (user_stories : List Issue) : List String :=
  sortBy strLe (setList (user_stories.map (fun i => i.epic_name)))

/-- One epic group of the user-story report: the stories of that epic in
composite-key order. -/
def epicSection (user_stories : List Issue) (name : String) : List Issue :=
  (sortBy (fun a b => decide (story_sort_key a ≤ story_sort_key b)) user_stories).filter
    (fun i => decide (i.epic_name = name))

/-- The grouped user-story report body: one group per epic name, names in
lexicographic order. -/
def user_story_sections (user_stories : List Issue) : List (String × List Issue) :=
  (epic_names_sorted user_stories).map (fun e => (e, epicSection user_stories e))

/-! ### Effort aggregation: `add_effort_estimates` -/

/-- The three per-priority dicts built by `add_effort_estimates`, modelled as
total functions (the source initializes an entry to `0`/`0.0`/`[]` on first
encounter, so absent keys and zero-initialized keys coincide). -/
structure EffortStats where
  num : Priority → Nat
  totals : Priority → ℚ
  missing : Priority → List String

/-- One iteration of the `add_effort_estimates` loop: bump the count of the
feature's priority tier, and either add its `days` estimate to the tier
total or record its key as missing an estimate. -/
def effortStep (st : EffortStats) (issue : Issue) : EffortStats :=
  let p := issue.priority
  match issue.days with
  | some d =>
    { st with
      num := fun q => if q = p then st.num q + 1 else st.num q
      totals := fun q => if q = p then st.totals q + d else st.totals q }
  | none =>
    { st with
      num := fun q => if q = p then st.num q + 1 else st.num q
      missing := fun q => if q = p then st.missing q ++ [issue.key] else st.missing q }

/-- `add_effort_estimates(features)`: per priority, count the features, sum
the `days` estimates that are present, and record the keys of features with
no estimate. -/
def add_effort_estimates (features : List Issue) : EffortStats :=
  features.foldl effortStep
    { num := fun _ => 0
      totals := fun _ => 0
      missing := fun _ => [] }

/-- Truncation toward zero, which is what Python's `%`-formatting conversion
`d` applied to a float performs (`int(3.5) == 3`). -/
def pyIntOfRat (q : ℚ) : ℤ := if 0 ≤ q then ⌊q⌋ else -⌊-q⌋

/-- The number printed for a tier by
`print("Effort estimate for %d %s features = %.1d work days" % (..., totals[priority]))`:
the conversion is `d`, not `f`, so the float total is converted with `int()`
(the `.1` precision only pads to at least one digit). -/
def reported_total (st : EffortStats) (p : Priority) : ℤ :=
  pyIntOfRat (st.totals p)

/-- The contribution of one feature to its tier's total: the estimate when
present, `0` otherwise. -/
def daysOrZero (i : Issue) : ℚ :=
  match i.days with
  | some d => d
  | none => 0

/-- The reference reduction for effort totals: the sum of the present
`days` values of the features of priority `p` (claim vocabulary, proved
equal to the fold). -/
def effortSumSpec (features : List Issue) (p : Priority) : ℚ :=
  ((features.filter (fun i => decide (i.priority = p))).map daysOrZero).sum

/-- The reference list of keys missing an estimate in tier `p`. -/
def missingSpec (features : List Issue) (p : Priority) : List String :=
  ((features.filter (fun i => decide (i.priority = p) && i.days.isNone)).map
    (fun i => i.key))

/-! ### `parse_timeestimate` -/

/-- ASCII test for the regex class `\w` (the estimates at hand are ASCII). -/
def isWordChar (c : Char) : Bool :=
  isUpperAZ c || isDigit09 c || ('a' ≤ c && c ≤ 'z') || c == '_'

/-- Python whitespace class `\s` (ASCII part). -/
def pyWhitespace (c : Char) : Bool :=
  c == ' ' || c == '\t' || c == '\n' || c == '\r' || c == '\x0B' || c == '\x0C'

/-- Match the regex group `(\d+(\.\d+)?)` at the start of `s`, returning the
`float(...)` value (exactly, as a rational) and the rest of the string; if
the optional fraction cannot match it is skipped, as the regex would. -/
def parseNumber (s : List Char) : Option (ℚ × List Char) :=
  let ds := s.takeWhile isDigit09
  if ds.isEmpty then none
  else
    let rest := s.drop ds.length
    match rest with
    | '.' :: r2 =>
      let fs := r2.takeWhile isDigit09
      if fs.isEmpty then some ((digitsToNat ds : ℚ), rest)
      else
        some ((digitsToNat ds : ℚ) + (digitsToNat fs : ℚ) / ((10 : ℚ) ^ fs.length),
          r2.drop fs.length)
    | _ => some ((digitsToNat ds : ℚ), rest)

/-- `unit = m.group(3).rstrip('s')`: drop every trailing `'s'`. -/
def rstripS (w : List Char) : List Char :=
  (w.reverse.dropWhile (fun c => c == 's')).reverse

/-- `parse_timeestimate(key, el)` on the element text: match
`^(\d+(\.\d+)?)\s+(\w+)$`, convert the unit to work days
(`month => *21.7, week => *5, day => *1, hour => /8, minute => /(8*60),
second => /(8*60*60)`).  On an unmatched format or an unrecognized unit the
source logs a warning and returns `0.0`; the Bool records whether that
warning branch was taken. -/
def parse_timeestimate (text : List Char) : ℚ × Bool :=
  match parseNumber text with
  | none => (0, true)
  | some (t, rest) =>
    let ws := rest.takeWhile pyWhitespace
    if ws.isEmpty then (0, true)
    else
      let rest2 := rest.drop ws.length
      let w := rest2.takeWhile isWordChar
      if w.isEmpty || !(rest2.drop w.length).isEmpty then (0, true)
      else
        let unit := rstripS w
        if unit = "month".data then (t * (217 / 10), false)
        else if unit = "week".data then (t * 5, false)
        else if unit = "day".data then (t, false)
        else if unit = "hour".data then (t / 8, false)
        else if unit = "minute".data then (t / (8 * 60), false)
        else if unit = "second".data then (t / (8 * 60 * 60), false)
        else (0, true)

/-! ### Text normalization: `html_to_tex` and the ingestion text fixes

`html2text` itself is an external collaborator; `html_to_tex` is modelled as
the transformation the script applies to that collaborator's output. -/

/-- Python `str.strip()`. -/
def pyStrip (s : List Char) : List Char :=
  ((s.dropWhile pyWhitespace).reverse.dropWhile pyWhitespace).reverse

/-- Drop a trailing whitespace run. -/
def dropTrailingWs (s : List Char) : List Char :=
  (s.reverse.dropWhile pyWhitespace).reverse

/-- `re.sub(r'[\r\n]', ' ', txt)`. -/
def stripLinebreaks (s : List Char) : List Char :=
  s.map (fun c => if c == '\r' || c == '\n' then ' ' else c)

/-- The characters of the class `([\&%$#_\{\}])`. -/
def texSpecial (c : Char) : Bool :=
  c == '&' || c == '%' || c == '$' || c == '#' || c == '_' || c == '\x7B' || c == '\x7D'

/-- `re.sub(r'([\&%$#_\{\}])', r'\\\g<1>', txt)`: prepend a backslash to
every TeX-special character. -/
def escapeTex (s : List Char) : List Char :=
  (s.map (fun c => if texSpecial c then ['\\', c] else [c])).flatten

/-- Match `[A-Z]+-\d+` at the start of `s` (the key shape used by the
markdown-link rewrite), returning the matched text and the rest. -/
def matchKeyShape (s : List Char) : Option (List Char × List Char) :=
  let us := s.takeWhile isUpperAZ
  if us.isEmpty then none
  else
    match s.drop us.length with
    | '-' :: r2 =>
      let ds := r2.takeWhile isDigit09
      if ds.isEmpty then none
      else some (us ++ '-' :: ds, r2.drop ds.length)
    | _ => none

/-- Whether `s` is exactly of the key shape `[A-Z]+-\d+`. -/
def keyShapeWhole (s : List Char) : Bool :=
  match matchKeyShape s with
  | some (_, []) => true
  | _ => false

/-- The replacement text `\\hyperlink{KEY}{KEY}`. -/
def hyperlinkText (key : List Char) : List Char :=
  '\\' :: "hyperlink".data ++ '\x7B' :: key ++ '\x7D' :: '\x7B' :: key ++ ['\x7D']

/-- The backtracking of `[^\)]+/([A-Z]+-\d+)` inside a `(...)` group: the
greedy `[^\)]+` settles on the rightmost `/` that is preceded by at least
one character and followed by exactly a key up to the closing parenthesis. -/
def lastSlashKey (inner : List Char) : Option (List Char) :=
  (List.range inner.length).foldl
    (fun acc i =>
      if inner.get? i == some '/' && decide (1 ≤ i) && keyShapeWhole (inner.drop (i + 1)) then
        some (inner.drop (i + 1))
      else acc)
    none

/-- Match `\[[A-Z]+-\d+\]\([^\)]+/([A-Z]+-\d+)\)` at the start of `s`,
returning the replacement text and the rest after the match. -/
def matchHyperlink (s : List Char) : Option (List Char × List Char) :=
  match s with
  | '[' :: r1 =>
    match matchKeyShape r1 with
    | some (_, ']' :: '(' :: r2) =>
      let inner := r2.takeWhile (fun c => c != ')')
      match r2.drop inner.length with
      | ')' :: rest =>
        match lastSlashKey inner with
        | some key2 => some (hyperlinkText key2, rest)
        | none => none
      | _ => none
    | _ => none
  | _ => none

/-- Left-to-right scan of `re.sub` for the markdown-link pattern; each match
consumes at least one character, so `fuel = s.length` never runs out. -/
def hyperlinkSubGo (fuel : Nat) (s : List Char) : List Char :=
  match fuel, s with
  | 0, s => s
  | _ + 1, [] => []
  | fuel + 1, c :: rest =>
    match matchHyperlink (c :: rest) with
    | some (rep, rem) => rep ++ hyperlinkSubGo fuel rem
    | none => c :: hyperlinkSubGo fuel rest

/-- `re.sub(r'\[[A-Z]+-\d+\]\([^\)]+/([A-Z]+-\d+)\)', r'\\hyperlink{\g<1>}{\g<1>}', txt)`. -/
def hyperlinkSub (s : List Char) : List Char := hyperlinkSubGo s.length s

/-- `re.sub(r'\s*\.\s*$', '', txt)`: remove one trailing period together
with the whitespace around it; without a trailing period the string is
returned unchanged. -/
def stripTrailingPeriod (txt : List Char) : List Char :=
  let b := dropTrailingWs txt
  if b.getLast? == some '.' then dropTrailingWs b.dropLast else txt

/-- `html_to_tex(html)` applied to the output of the external
`html2text` conversion (`h.handle(html)`): strip, remove linebreaks, escape
TeX specials, rewrite markdown links, ditch any trailing period. -/
def html_to_tex (handled : List Char) : List Char :=
  let txt := pyStrip handled
  let txt := stripLinebreaks txt
  let txt := escapeTex txt
  let txt := hyperlinkSub txt
  stripTrailingPeriod txt

/-- `re.search(r'[\?\!\.]$', d)`: the text ends in terminal punctuation. -/
def endsPunct (s : List Char) : Bool :=
  s.getLast? == some '?' || s.getLast? == some '!' || s.getLast? == some '.'

/-- `args['summary'] = html_to_tex(args['summary'])` in `split_jira_results`. -/
def normalize_summary (summaryHandled : List Char) : List Char :=
  html_to_tex summaryHandled

/-- The description normalization of `split_jira_results`: convert (or fall
back to the already-converted summary when the raw description is falsy),
then append a period unless the text already ends in `?`, `!` or `.`. -/
def normalize_description (summaryHandled : List Char)
    (descriptionHandled : Option (List Char)) : List Char :=
  let s := normalize_summary summaryHandled
  let d :=
    match descriptionHandled with
    | some dh => html_to_tex dh
    | none => s
  if endsPunct d then d else d ++ ['.']

/-! ### Summary type-token handling for Features and Policies -/

/-- Match the literal token `tok` at the start of `s`, returning the rest. -/
def stripExact : List Char → List Char → Option (List Char)
  | [], s => some s
  | _ :: _, [] => none
  | t :: ts, c :: cs => if c == t then stripExact ts cs else none

/-- Match `tok` followed by `\s+` (greedy) at the start of `s`, returning
the rest after the whitespace run. -/
def matchTokenWs (tok s : List Char) : Option (List Char) :=
  match stripExact tok s with
  | none => none
  | some rest =>
    match rest with
    | c :: cs => if pyWhitespace c then some (cs.dropWhile pyWhitespace) else none
    | [] => none

/-- Left-to-right scan of `re.sub(tok + r'\s+', '', s)`: remove every
occurrence, resuming after each removal; each match consumes at least one
character, so `fuel = s.length` never runs out. -/
def removeTokenGo (tok : List Char) (fuel : Nat) (s : List Char) : List Char :=
  match fuel, s with
  | 0, s => s
  | _ + 1, [] => []
  | fuel + 1, c :: rest =>
    match matchTokenWs tok (c :: rest) with
    | some rem => removeTokenGo tok fuel rem
    | none => c :: removeTokenGo tok fuel rest

/-- `re.sub(tok + r'\s+', '', s)`. -/
def removeToken (tok s : List Char) : List Char := removeTokenGo tok s.length s

/-- The token occurs (followed by whitespace) somewhere in `s`. -/
def hasTokenWs (tok : List Char) : List Char → Bool
  | [] => false
  | c :: rest => (matchTokenWs tok (c :: rest)).isSome || hasTokenWs tok rest

/-- `s` begins with the literal token `tok` (claim vocabulary). -/
def beginsWith (tok s : List Char) : Bool := (stripExact tok s).isSome

/-- The Feature branch of `split_jira_results`:
`summary = re.sub(r'Feature:\s+', '', args['summary'])`, and if the
substitution changed nothing, `raise Exception("... is Feature but without
summary prefix ...")`. -/
def featureSummaryNormalize (summary : List Char) : Except String (List Char) :=
  let s2 := removeToken "Feature:".data summary
  if s2 = summary then .error "is Feature but without summary token" else .ok s2

/-- The Policy branch of `split_jira_results`, same rule with `Policy:`. -/
def policySummaryNormalize (summary : List Char) : Except String (List Char) :=
  let s2 := removeToken "Policy:".data summary
  if s2 = summary then .error "is Policy but without summary token" else .ok s2

/-! ### Concrete fixtures used by witnesses and counterexamples -/

/-- A Critical user story relying on `IRS-1`, member of epic `EpicA`. -/
def story1 : Issue :=
  { key := "IRS-10"
    priority := .Critical
    epic_name := "EpicA"
    issuelinks := [("Relies on", ["IRS-1"])] }

/-- A Low feature relied upon by the Critical story `IRS-10`. -/
def feat1 : Issue :=
  { key := "IRS-1"
    priority := .Low
    issuelinks := [("Is relied upon by", ["IRS-10"])] }

/-- A Low policy relied upon by the feature `IRS-1`. -/
def pol1 : Issue :=
  { key := "IRS-2"
    priority := .Low
    issuelinks := [("Is relied upon by", ["IRS-1"])] }

/-- A feature whose only reliance target `IRS-999` exists nowhere. -/
def featD : Issue :=
  { key := "IRS-3"
    priority := .Major
    issuelinks := [("Is relied upon by", ["IRS-999"])] }

/-- A story whose only `Relies on` target `IRS-999` exists nowhere. -/
def storyD : Issue :=
  { key := "IRS-11"
    priority := .Low
    epic_name := "EpicA"
    issuelinks := [("Relies on", ["IRS-999"])] }

/-- Critical feature with a 1.5-day estimate. -/
def featE1 : Issue :=
  { key := "IRS-21"
    priority := .Critical
    days := some (3 / 2) }

/-- Critical feature with a 2.0-day estimate. -/
def featE2 : Issue :=
  { key := "IRS-22"
    priority := .Critical
    days := some 2 }

/-- Feature carrying the `0.0` estimate parsed from the unrecognized
estimate text `"3 fortnights"`. -/
def featE3 : Issue :=
  { key := "IRS-23"
    priority := .Major
    days := some (parse_timeestimate "3 fortnights".data).1 }

/-- Fixture stories for the grouping claim: two epics, mixed priorities. -/
def storyG1 : Issue :=
  { key := "IRS-31", priority := .Low, epic_name := "Beta" }

/-- Grouping fixture: Critical story in epic `Alpha`. -/
def storyG2 : Issue :=
  { key := "IRS-32", priority := .Critical, epic_name := "Alpha" }

/-- Grouping fixture: Major story in epic `Beta`. -/
def storyG3 : Issue :=
  { key := "IRS-33", priority := .Major, epic_name := "Beta" }

/-- Grouping fixture: Low story in epic `Beta` with a smaller number. -/
def storyG4 : Issue :=
  { key := "IRS-30", priority := .Low, epic_name := "Beta" }

theorem alGet_nil {α : Type} (k : String) : alGet ([] : List (String × α)) k = none := rfl

theorem alGet_cons {α : Type} (kv : String × α) (rest : List (String × α)) (k : String) :
    alGet (kv :: rest) k = if kv.1 = k then some kv.2 else alGet rest k := by
  by_cases h : kv.1 = k <;> simp [alGet, List.find?_cons, h]

theorem alSet_cons {α : Type} (kv : String × α) (rest : List (String × α)) (k : String) (v : α) :
    alSet (kv :: rest) k v = if kv.1 = k then (k, v) :: rest else kv :: alSet rest k v := by
  by_cases h : kv.1 = k <;> simp [alSet, h]

theorem alGet_alSet_self {α : Type} (d : List (String × α)) (k : String) (v : α) :
    alGet (alSet d k v) k = some v := by
  induction d with
  | nil => simp [alGet, alSet]
  | cons kv rest ih =>
    by_cases h : kv.1 = k
    · simp [alSet_cons, alGet_cons, h]
    · simp [alSet_cons, alGet_cons, h, ih]

theorem alGet_alSet_ne {α : Type} (d : List (String × α)) (k k' : String) (v : α)
    (h : k' ≠ k) : alGet (alSet d k v) k' = alGet d k' := by
  induction d with
  | nil => simp [alGet, alSet, Ne.symm h]
  | cons kv rest ih =>
    by_cases hk : kv.1 = k
    · simp [alSet_cons, alGet_cons, hk, h, Ne.symm h, hk ▸ Ne.symm h]
    · by_cases hk' : kv.1 = k'
      · simp [alSet_cons, alGet_cons, hk, hk', h]
      · simp [alSet_cons, alGet_cons, hk, hk', ih]

theorem alSet_get_self {α : Type} (d : List (String × α)) (k : String) (v : α)
    (h : alGet d k = some v) : alSet d k v = d := by
  induction d with
  | nil => simp [alGet] at h
  | cons kv rest ih =>
    rw [alGet_cons] at h
    by_cases hk : kv.1 = k
    · rw [if_pos hk] at h
      have : kv = (k, v) := by
        cases kv
        simp_all
      simp [alSet_cons, hk, this]
    · rw [if_neg hk] at h
      simp [alSet_cons, hk, ih h]

theorem alSet_ne_nil {α : Type} (d : List (String × α)) (k : String) (v : α) :
    alSet d k v ≠ [] := by
  cases d with
  | nil => simp [alSet]
  | cons kv rest =>
    rw [alSet_cons]
    split <;> simp


theorem scanMax_nil (pool : List Issue) (acc : Option Priority) :
    scanMax pool acc [] = .ok acc := rfl

theorem scanMax_cons_dangling (pool : List Issue) (t : String) (rest : List String)
    (acc : Option Priority) (hg : get_issue pool t = none) :
    scanMax pool acc (t :: rest) = .error t := by
  rw [scanMax, hg]

theorem scanMax_cons_none (pool : List Issue) (t : String) (rest : List String)
    (u : Issue) (hg : get_issue pool t = some u) :
    scanMax pool none (t :: rest) = scanMax pool (some u.priority) rest := by
  rw [scanMax, hg]

theorem scanMax_cons_some (pool : List Issue) (t : String) (rest : List String)
    (u : Issue) (q : Priority) (hg : get_issue pool t = some u) :
    scanMax pool (some q) (t :: rest) =
      if PRIORITY_TO_VALUE u.priority > PRIORITY_TO_VALUE q then
        scanMax pool (some u.priority) rest
      else
        scanMax pool (some q) rest := by
  rw [scanMax, hg]

theorem scanMax_some (pool : List Issue) (ts : List String) (q : Priority)
    (r : Option Priority) (h : scanMax pool (some q) ts = .ok r) :
    ∃ p, r = some p ∧ PRIORITY_TO_VALUE q ≤ PRIORITY_TO_VALUE p := by
  induction ts generalizing q with
  | nil =>
    simp [scanMax_nil] at h
    exact ⟨q, h.symm, le_refl _⟩
  | cons t rest ih =>
    cases hg : get_issue pool t with
    | none => rw [scanMax_cons_dangling pool t rest _ hg] at h; cases h
    | some u =>
      rw [scanMax_cons_some pool t rest u q hg] at h
      by_cases hc : PRIORITY_TO_VALUE u.priority > PRIORITY_TO_VALUE q
      · rw [if_pos hc] at h
        obtain ⟨p, hp, hle⟩ := ih _ h
        exact ⟨p, hp, le_trans (le_of_lt hc) hle⟩
      · rw [if_neg hc] at h
        exact ih _ h

theorem scanMax_none_nil (pool : List Issue) (ts : List String)
    (h : scanMax pool none ts = .ok none) : ts = [] := by
  cases ts with
  | nil => rfl
  | cons t rest =>
    cases hg : get_issue pool t with
    | none => rw [scanMax_cons_dangling pool t rest _ hg] at h; cases h
    | some u =>
      rw [scanMax_cons_none pool t rest u hg] at h
      obtain ⟨p, hp, _⟩ := scanMax_some pool rest u.priority none h
      cases hp

theorem scanMax_elem_le (pool : List Issue) (ts : List String) (acc : Option Priority)
    (p : Priority) (h : scanMax pool acc ts = .ok (some p)) :
    ∀ t ∈ ts, ∃ u, get_issue pool t = some u ∧
      PRIORITY_TO_VALUE u.priority ≤ PRIORITY_TO_VALUE p := by
  induction ts generalizing acc with
  | nil => intro t ht; cases ht
  | cons t0 rest ih =>
    intro t ht
    cases hg : get_issue pool t0 with
    | none => rw [scanMax_cons_dangling pool t0 rest _ hg] at h; cases h
    | some u0 =>
      have hnext : ∃ acc', scanMax pool acc (t0 :: rest) = scanMax pool (some acc') rest ∧
          PRIORITY_TO_VALUE u0.priority ≤ PRIORITY_TO_VALUE acc' := by
        cases acc with
        | none =>
          exact ⟨u0.priority, scanMax_cons_none pool t0 rest u0 hg, le_refl _⟩
        | some q =>
          by_cases hc : PRIORITY_TO_VALUE u0.priority > PRIORITY_TO_VALUE q
          · exact ⟨u0.priority, by rw [scanMax_cons_some pool t0 rest u0 q hg, if_pos hc], le_refl _⟩
          · exact ⟨q, by rw [scanMax_cons_some pool t0 rest u0 q hg, if_neg hc], le_of_not_lt hc⟩
      obtain ⟨acc', heq, hle0⟩ := hnext
      rw [heq] at h
      rcases List.mem_cons.mp ht with rfl | hmem
      · refine ⟨u0, hg, ?_⟩
        obtain ⟨p', hp', hle⟩ := scanMax_some pool rest acc' _ h
        cases hp'
        exact le_trans hle0 hle
      · exact ih _ h t hmem

theorem scanMax_error_of_dangling (pool : List Issue) (ts : List String)
    (hdang : ∃ t ∈ ts, get_issue pool t = none) (acc : Option Priority) :
    ∃ e, scanMax pool acc ts = .error e := by
  induction ts generalizing acc with
  | nil => obtain ⟨t, ht, _⟩ := hdang; cases ht
  | cons t0 rest ih =>
    obtain ⟨t, ht, hnone⟩ := hdang
    cases hg : get_issue pool t0 with
    | none => exact ⟨t0, scanMax_cons_dangling pool t0 rest _ hg⟩
    | some u0 =>
      rcases List.mem_cons.mp ht with rfl | hmem
      · rw [hg] at hnone; cases hnone
      · cases acc with
        | none =>
          obtain ⟨e, he⟩ := ih ⟨t, hmem, hnone⟩ (some u0.priority)
          exact ⟨e, by rw [scanMax_cons_none pool t0 rest u0 hg]; exact he⟩
        | some q =>
          by_cases hc : PRIORITY_TO_VALUE u0.priority > PRIORITY_TO_VALUE q
          · obtain ⟨e, he⟩ := ih ⟨t, hmem, hnone⟩ (some u0.priority)
            exact ⟨e, by rw [scanMax_cons_some pool t0 rest u0 q hg, if_pos hc]; exact he⟩
          · obtain ⟨e, he⟩ := ih ⟨t, hmem, hnone⟩ (some q)
            exact ⟨e, by rw [scanMax_cons_some pool t0 rest u0 q hg, if_neg hc]; exact he⟩


theorem scanMin_nil (pool : List Issue) (acc : Option Priority) :
    scanMin pool acc [] = .ok acc := rfl

theorem scanMin_cons_dangling (pool : List Issue) (t : String) (rest : List String)
    (acc : Option Priority) (hg : get_issue pool t = none) :
    scanMin pool acc (t :: rest) = .error t := by
  rw [scanMin, hg]

theorem scanMin_cons_none (pool : List Issue) (t : String) (rest : List String)
    (u : Issue) (hg : get_issue pool t = some u) :
    scanMin pool none (t :: rest) = scanMin pool (some u.priority) rest := by
  rw [scanMin, hg]

theorem scanMin_cons_some (pool : List Issue) (t : String) (rest : List String)
    (u : Issue) (q : Priority) (hg : get_issue pool t = some u) :
    scanMin pool (some q) (t :: rest) =
      if PRIORITY_TO_VALUE u.priority < PRIORITY_TO_VALUE q then
        scanMin pool (some u.priority) rest
      else
        scanMin pool (some q) rest := by
  rw [scanMin, hg]

theorem scanMin_some (pool : List Issue) (ts : List String) (q : Priority)
    (r : Option Priority) (h : scanMin pool (some q) ts = .ok r) :
    ∃ p, r = some p ∧ PRIORITY_TO_VALUE p ≤ PRIORITY_TO_VALUE q := by
  induction ts generalizing q with
  | nil =>
    simp [scanMin_nil] at h
    exact ⟨q, h.symm, le_refl _⟩
  | cons t rest ih =>
    cases hg : get_issue pool t with
    | none => rw [scanMin_cons_dangling pool t rest _ hg] at h; cases h
    | some u =>
      rw [scanMin_cons_some pool t rest u q hg] at h
      by_cases hc : PRIORITY_TO_VALUE u.priority < PRIORITY_TO_VALUE q
      · rw [if_pos hc] at h
        obtain ⟨p, hp, hle⟩ := ih _ h
        exact ⟨p, hp, le_trans hle (le_of_lt hc)⟩
      · rw [if_neg hc] at h
        exact ih _ h

theorem scanMin_none_nil (pool : List Issue) (ts : List String)
    (h : scanMin pool none ts = .ok none) : ts = [] := by
  cases ts with
  | nil => rfl
  | cons t rest =>
    cases hg : get_issue pool t with
    | none => rw [scanMin_cons_dangling pool t rest _ hg] at h; cases h
    | some u =>
      rw [scanMin_cons_none pool t rest u hg] at h
      obtain ⟨p, hp, _⟩ := scanMin_some pool rest u.priority none h
      cases hp

theorem scanMin_elem_ge (pool : List Issue) (ts : List String) (acc : Option Priority)
    (p : Priority) (h : scanMin pool acc ts = .ok (some p)) :
    ∀ t ∈ ts, ∃ u, get_issue pool t = some u ∧
      PRIORITY_TO_VALUE p ≤ PRIORITY_TO_VALUE u.priority := by
  induction ts generalizing acc with
  | nil => intro t ht; cases ht
  | cons t0 rest ih =>
    intro t ht
    cases hg : get_issue pool t0 with
    | none => rw [scanMin_cons_dangling pool t0 rest _ hg] at h; cases h
    | some u0 =>
      have hnext : ∃ acc', scanMin pool acc (t0 :: rest) = scanMin pool (some acc') rest ∧
          PRIORITY_TO_VALUE acc' ≤ PRIORITY_TO_VALUE u0.priority := by
        cases acc with
        | none =>
          exact ⟨u0.priority, scanMin_cons_none pool t0 rest u0 hg, le_refl _⟩
        | some q =>
          by_cases hc : PRIORITY_TO_VALUE u0.priority < PRIORITY_TO_VALUE q
          · exact ⟨u0.priority, by rw [scanMin_cons_some pool t0 rest u0 q hg, if_pos hc], le_refl _⟩
          · exact ⟨q, by rw [scanMin_cons_some pool t0 rest u0 q hg, if_neg hc], le_of_not_lt hc⟩
      obtain ⟨acc', heq, hle0⟩ := hnext
      rw [heq] at h
      rcases List.mem_cons.mp ht with rfl | hmem
      · refine ⟨u0, hg, ?_⟩
        obtain ⟨p', hp', hle⟩ := scanMin_some pool rest acc' _ h
        cases hp'
        exact le_trans hle hle0
      · exact ih _ h t hmem

theorem scanMin_attained (pool : List Issue) (ts : List String) (acc : Option Priority)
    (p : Priority) (h : scanMin pool acc ts = .ok (some p)) :
    acc = some p ∨ ∃ t ∈ ts, ∃ u, get_issue pool t = some u ∧ u.priority = p := by
  induction ts generalizing acc with
  | nil =>
    left
    simpa [scanMin_nil] using h
  | cons t0 rest ih =>
    cases hg : get_issue pool t0 with
    | none => rw [scanMin_cons_dangling pool t0 rest _ hg] at h; cases h
    | some u0 =>
      have hcore : ∀ acc', scanMin pool (some acc') rest = .ok (some p) →
          acc' = u0.priority ∨ acc = some acc' →
          acc = some p ∨ ∃ t ∈ t0 :: rest, ∃ u, get_issue pool t = some u ∧ u.priority = p := by
        intro acc' h' hacc
        rcases ih (some acc') h' with heq | ⟨t, htm, u, hu, hup⟩
        · cases heq
          rcases hacc with rfl | hacc
          · exact Or.inr ⟨t0, List.mem_cons_self t0 rest, u0, hg, rfl⟩
          · exact Or.inl hacc
        · exact Or.inr ⟨t, List.mem_cons_of_mem t0 htm, u, hu, hup⟩
      cases acc with
      | none =>
        rw [scanMin_cons_none pool t0 rest u0 hg] at h
        exact hcore u0.priority h (Or.inl rfl)
      | some q =>
        rw [scanMin_cons_some pool t0 rest u0 q hg] at h
        by_cases hc : PRIORITY_TO_VALUE u0.priority < PRIORITY_TO_VALUE q
        · rw [if_pos hc] at h
          exact hcore u0.priority h (Or.inl rfl)
        · rw [if_neg hc] at h
          exact hcore q h (Or.inr rfl)

theorem scanMin_error_of_dangling (pool : List Issue) (ts : List String)
    (hdang : ∃ t ∈ ts, get_issue pool t = none) (acc : Option Priority) :
    ∃ e, scanMin pool acc ts = .error e := by
  induction ts generalizing acc with
  | nil => obtain ⟨t, ht, _⟩ := hdang; cases ht
  | cons t0 rest ih =>
    obtain ⟨t, ht, hnone⟩ := hdang
    cases hg : get_issue pool t0 with
    | none => exact ⟨t0, scanMin_cons_dangling pool t0 rest _ hg⟩
    | some u0 =>
      rcases List.mem_cons.mp ht with rfl | hmem
      · rw [hg] at hnone; cases hnone
      · cases acc with
        | none =>
          obtain ⟨e, he⟩ := ih ⟨t, hmem, hnone⟩ (some u0.priority)
          exact ⟨e, by rw [scanMin_cons_none pool t0 rest u0 hg]; exact he⟩
        | some q =>
          by_cases hc : PRIORITY_TO_VALUE u0.priority < PRIORITY_TO_VALUE q
          · obtain ⟨e, he⟩ := ih ⟨t, hmem, hnone⟩ (some u0.priority)
            exact ⟨e, by rw [scanMin_cons_some pool t0 rest u0 q hg, if_pos hc]; exact he⟩
          · obtain ⟨e, he⟩ := ih ⟨t, hmem, hnone⟩ (some q)
            exact ⟨e, by rw [scanMin_cons_some pool t0 rest u0 q hg, if_neg hc]; exact he⟩

theorem inferCompare_none (m : Bool) (i : Issue) (ev0 : List Event) :
    inferCompare m i ev0 none = (i, ev0 ++ [Event.noPriority i.key]) := rfl

theorem inferCompare_lt_true (i : Issue) (p : Priority) (ev0 : List Event)
    (h : PRIORITY_TO_VALUE i.priority < PRIORITY_TO_VALUE p) :
    inferCompare true i ev0 (some p) =
      ({ i with priority := p },
        ev0 ++ [Event.inconsistency i.key i.priority p,
                Event.changed i.key i.priority p]) := by
  simp only [inferCompare]
  rw [if_pos h]
  rfl

theorem inferCompare_lt_false (i : Issue) (p : Priority) (ev0 : List Event)
    (h : PRIORITY_TO_VALUE i.priority < PRIORITY_TO_VALUE p) :
    inferCompare false i ev0 (some p) =
      (i, ev0 ++ [Event.inconsistency i.key i.priority p]) := by
  simp only [inferCompare]
  rw [if_pos h]
  rfl

theorem inferCompare_gt (m : Bool) (i : Issue) (p : Priority) (ev0 : List Event)
    (h : PRIORITY_TO_VALUE p < PRIORITY_TO_VALUE i.priority) :
    inferCompare m i ev0 (some p) = (i, ev0 ++ [Event.note i.key i.priority p]) := by
  simp only [inferCompare]
  rw [if_neg (not_lt.mpr (le_of_lt h)), if_pos h]

theorem inferCompare_same (m : Bool) (i : Issue) (p : Priority) (ev0 : List Event)
    (h : PRIORITY_TO_VALUE i.priority = PRIORITY_TO_VALUE p) :
    inferCompare m i ev0 (some p) = (i, ev0) := by
  simp only [inferCompare]
  rw [if_neg (not_lt.mpr (le_of_eq h.symm)), if_neg (not_lt.mpr (le_of_eq h))]

theorem inferStep_eq_absent (pool : List Issue) (m : Bool) (i : Issue)
    (h : alGet i.issuelinks "Is relied upon by" = none) :
    inferStep pool m i = .ok (inferCompare m i [Event.noDependents i.key] none) := by
  rw [inferStep, h]

theorem inferStep_eq_scan (pool : List Issue) (m : Bool) (i : Issue) (ts : List String)
    (h1 : alGet i.issuelinks "Is relied upon by" = some ts) :
    inferStep pool m i = inferFromMax m i (inferMax pool ts) := by
  rw [inferStep, h1]

theorem inferStep_eq_ok (pool : List Issue) (m : Bool) (i : Issue) (ts : List String)
    (pr0 : Option Priority) (h1 : alGet i.issuelinks "Is relied upon by" = some ts)
    (h2 : inferMax pool ts = .ok pr0) :
    inferStep pool m i = .ok (inferCompare m i [] pr0) := by
  rw [inferStep_eq_scan pool m i ts h1, h2, inferFromMax]

theorem inferStep_eq_err (pool : List Issue) (m : Bool) (i : Issue) (ts : List String)
    (e : String) (h1 : alGet i.issuelinks "Is relied upon by" = some ts)
    (h2 : inferMax pool ts = .error e) :
    inferStep pool m i = .error e := by
  rw [inferStep_eq_scan pool m i ts h1, h2, inferFromMax]

theorem checkCompare_none (m : Bool) (i : Issue) (ev0 : List Event) :
    checkCompare m i ev0 none = (i, ev0 ++ [Event.noPriority i.key]) := rfl

theorem checkCompare_gt_true (i : Issue) (p : Priority) (ev0 : List Event)
    (h : PRIORITY_TO_VALUE p < PRIORITY_TO_VALUE i.priority) :
    checkCompare true i ev0 (some p) =
      ({ i with priority := p },
        ev0 ++ [Event.inconsistency i.key i.priority p,
                Event.changed i.key i.priority p]) := by
  simp only [checkCompare]
  rw [if_pos h]
  rfl

theorem checkCompare_gt_false (i : Issue) (p : Priority) (ev0 : List Event)
    (h : PRIORITY_TO_VALUE p < PRIORITY_TO_VALUE i.priority) :
    checkCompare false i ev0 (some p) =
      (i, ev0 ++ [Event.inconsistency i.key i.priority p]) := by
  simp only [checkCompare]
  rw [if_pos h]
  rfl

theorem checkCompare_lt (m : Bool) (i : Issue) (p : Priority) (ev0 : List Event)
    (h : PRIORITY_TO_VALUE i.priority < PRIORITY_TO_VALUE p) :
    checkCompare m i ev0 (some p) = (i, ev0 ++ [Event.note i.key i.priority p]) := by
  simp only [checkCompare]
  rw [if_neg (not_lt.mpr (le_of_lt h)), if_pos h]

theorem checkCompare_same (m : Bool) (i : Issue) (p : Priority) (ev0 : List Event)
    (h : PRIORITY_TO_VALUE i.priority = PRIORITY_TO_VALUE p) :
    checkCompare m i ev0 (some p) = (i, ev0) := by
  simp only [checkCompare]
  rw [if_neg (not_lt.mpr (le_of_eq h)), if_neg (not_lt.mpr (le_of_eq h.symm))]

theorem checkStep_eq_absent (pool : List Issue) (m : Bool) (i : Issue)
    (h : alGet i.issuelinks "Relies on" = none) :
    checkStep pool m i = .ok (checkCompare m i [Event.noDependents i.key] none) := by
  rw [checkStep, h]

theorem checkStep_eq_scan (pool : List Issue) (m : Bool) (i : Issue) (ts : List String)
    (h1 : alGet i.issuelinks "Relies on" = some ts) :
    checkStep pool m i = checkFromMin m i (checkMin pool ts) := by
  rw [checkStep, h1]

theorem checkStep_eq_ok (pool : List Issue) (m : Bool) (i : Issue) (ts : List String)
    (pr0 : Option Priority) (h1 : alGet i.issuelinks "Relies on" = some ts)
    (h2 : checkMin pool ts = .ok pr0) :
    checkStep pool m i = .ok (checkCompare m i [] pr0) := by
  rw [checkStep_eq_scan pool m i ts h1, h2, checkFromMin]

theorem checkStep_eq_err (pool : List Issue) (m : Bool) (i : Issue) (ts : List String)
    (e : String) (h1 : alGet i.issuelinks "Relies on" = some ts)
    (h2 : checkMin pool ts = .error e) :
    checkStep pool m i = .error e := by
  rw [checkStep_eq_scan pool m i ts h1, h2, checkFromMin]

theorem PRIORITY_TO_VALUE_inj (a b : Priority)
    (h : PRIORITY_TO_VALUE a = PRIORITY_TO_VALUE b) : a = b := by
  revert h
  cases a <;> cases b <;> decide

theorem inferCompare_cases (m : Bool) (i : Issue) (ev0 : List Event)
    (pr0 : Option Priority) :
    (pr0 = none ∧ inferCompare m i ev0 pr0 = (i, ev0 ++ [Event.noPriority i.key])) ∨
    (∃ p, pr0 = some p ∧
      ((PRIORITY_TO_VALUE i.priority < PRIORITY_TO_VALUE p ∧ m = true ∧
          inferCompare m i ev0 pr0 = ({ i with priority := p },
            ev0 ++ [Event.inconsistency i.key i.priority p,
                    Event.changed i.key i.priority p])) ∨
       (PRIORITY_TO_VALUE i.priority < PRIORITY_TO_VALUE p ∧ m = false ∧
          inferCompare m i ev0 pr0 = (i, ev0 ++ [Event.inconsistency i.key i.priority p])) ∨
       (PRIORITY_TO_VALUE p < PRIORITY_TO_VALUE i.priority ∧
          inferCompare m i ev0 pr0 = (i, ev0 ++ [Event.note i.key i.priority p])) ∨
       (PRIORITY_TO_VALUE i.priority = PRIORITY_TO_VALUE p ∧
          inferCompare m i ev0 pr0 = (i, ev0)))) := by
  cases pr0 with
  | none => exact Or.inl ⟨rfl, inferCompare_none m i ev0⟩
  | some p =>
    refine Or.inr ⟨p, rfl, ?_⟩
    rcases lt_trichotomy (PRIORITY_TO_VALUE i.priority) (PRIORITY_TO_VALUE p) with hlt | heq | hgt
    · cases m
      · exact Or.inr (Or.inl ⟨hlt, rfl, inferCompare_lt_false i p ev0 hlt⟩)
      · exact Or.inl ⟨hlt, rfl, inferCompare_lt_true i p ev0 hlt⟩
    · exact Or.inr (Or.inr (Or.inr ⟨heq, inferCompare_same m i p ev0 heq⟩))
    · exact Or.inr (Or.inr (Or.inl ⟨hgt, inferCompare_gt m i p ev0 hgt⟩))

theorem checkCompare_cases (m : Bool) (i : Issue) (ev0 : List Event)
    (pr0 : Option Priority) :
    (pr0 = none ∧ checkCompare m i ev0 pr0 = (i, ev0 ++ [Event.noPriority i.key])) ∨
    (∃ p, pr0 = some p ∧
      ((PRIORITY_TO_VALUE p < PRIORITY_TO_VALUE i.priority ∧ m = true ∧
          checkCompare m i ev0 pr0 = ({ i with priority := p },
            ev0 ++ [Event.inconsistency i.key i.priority p,
                    Event.changed i.key i.priority p])) ∨
       (PRIORITY_TO_VALUE p < PRIORITY_TO_VALUE i.priority ∧ m = false ∧
          checkCompare m i ev0 pr0 = (i, ev0 ++ [Event.inconsistency i.key i.priority p])) ∨
       (PRIORITY_TO_VALUE i.priority < PRIORITY_TO_VALUE p ∧
          checkCompare m i ev0 pr0 = (i, ev0 ++ [Event.note i.key i.priority p])) ∨
       (PRIORITY_TO_VALUE i.priority = PRIORITY_TO_VALUE p ∧
          checkCompare m i ev0 pr0 = (i, ev0)))) := by
  cases pr0 with
  | none => exact Or.inl ⟨rfl, checkCompare_none m i ev0⟩
  | some p =>
    refine Or.inr ⟨p, rfl, ?_⟩
    rcases lt_trichotomy (PRIORITY_TO_VALUE p) (PRIORITY_TO_VALUE i.priority) with hlt | heq | hgt
    · cases m
      · exact Or.inr (Or.inl ⟨hlt, rfl, checkCompare_gt_false i p ev0 hlt⟩)
      · exact Or.inl ⟨hlt, rfl, checkCompare_gt_true i p ev0 hlt⟩
    · exact Or.inr (Or.inr (Or.inr ⟨heq.symm, checkCompare_same m i p ev0 heq.symm⟩))
    · exact Or.inr (Or.inr (Or.inl ⟨hgt, checkCompare_lt m i p ev0 hgt⟩))

theorem inferStep_ok_inv (pool : List Issue) (m : Bool) (i i' : Issue)
    (ev : List Event) (h : inferStep pool m i = .ok (i', ev)) :
    ∃ ev0 pr0, inferCompare m i ev0 pr0 = (i', ev) ∧
      ((alGet i.issuelinks "Is relied upon by" = none ∧
          ev0 = [Event.noDependents i.key] ∧ pr0 = none) ∨
       (∃ ts, alGet i.issuelinks "Is relied upon by" = some ts ∧ ev0 = [] ∧
          inferMax pool ts = .ok pr0)) := by
  cases halGet : alGet i.issuelinks "Is relied upon by" with
  | none =>
    rw [inferStep_eq_absent pool m i halGet] at h
    refine ⟨[Event.noDependents i.key], none, ?_, Or.inl ⟨rfl, rfl, rfl⟩⟩
    simpa using h
  | some ts =>
    cases hmax : inferMax pool ts with
    | error e =>
      rw [inferStep_eq_err pool m i ts e halGet hmax] at h
      cases h
    | ok pr0 =>
      rw [inferStep_eq_ok pool m i ts pr0 halGet hmax] at h
      refine ⟨[], pr0, ?_, Or.inr ⟨ts, rfl, rfl, hmax⟩⟩
      simpa using h

theorem checkStep_ok_inv (pool : List Issue) (m : Bool) (i i' : Issue)
    (ev : List Event) (h : checkStep pool m i = .ok (i', ev)) :
    ∃ ev0 pr0, checkCompare m i ev0 pr0 = (i', ev) ∧
      ((alGet i.issuelinks "Relies on" = none ∧
          ev0 = [Event.noDependents i.key] ∧ pr0 = none) ∨
       (∃ ts, alGet i.issuelinks "Relies on" = some ts ∧ ev0 = [] ∧
          checkMin pool ts = .ok pr0)) := by
  cases halGet : alGet i.issuelinks "Relies on" with
  | none =>
    rw [checkStep_eq_absent pool m i halGet] at h
    refine ⟨[Event.noDependents i.key], none, ?_, Or.inl ⟨rfl, rfl, rfl⟩⟩
    simpa using h
  | some ts =>
    cases hmin : checkMin pool ts with
    | error e =>
      rw [checkStep_eq_err pool m i ts e halGet hmin] at h
      cases h
    | ok pr0 =>
      rw [checkStep_eq_ok pool m i ts pr0 halGet hmin] at h
      refine ⟨[], pr0, ?_, Or.inr ⟨ts, rfl, rfl, hmin⟩⟩
      simpa using h

theorem inferStep_fields (pool : List Issue) (m : Bool) (i i' : Issue)
    (ev : List Event) (h : inferStep pool m i = .ok (i', ev)) :
    i'.key = i.key ∧ i'.issuelinks = i.issuelinks ∧
      i'.epic_name = i.epic_name ∧ i'.days = i.days := by
  obtain ⟨ev0, pr0, hc, _⟩ := inferStep_ok_inv pool m i i' ev h
  rcases inferCompare_cases m i ev0 pr0 with ⟨_, he⟩ |
    ⟨p, _, ⟨_, _, he⟩ | ⟨_, _, he⟩ | ⟨_, he⟩ | ⟨_, he⟩⟩ <;>
    · rw [he] at hc
      obtain ⟨h1, _⟩ := Prod.mk.injEq .. ▸ hc
      subst h1
      simp

theorem checkStep_fields (pool : List Issue) (m : Bool) (i i' : Issue)
    (ev : List Event) (h : checkStep pool m i = .ok (i', ev)) :
    i'.key = i.key ∧ i'.issuelinks = i.issuelinks ∧
      i'.epic_name = i.epic_name ∧ i'.days = i.days := by
  obtain ⟨ev0, pr0, hc, _⟩ := checkStep_ok_inv pool m i i' ev h
  rcases checkCompare_cases m i ev0 pr0 with ⟨_, he⟩ |
    ⟨p, _, ⟨_, _, he⟩ | ⟨_, _, he⟩ | ⟨_, he⟩ | ⟨_, he⟩⟩ <;>
    · rw [he] at hc
      obtain ⟨h1, _⟩ := Prod.mk.injEq .. ▸ hc
      subst h1
      simp

theorem inferStep_post_true (pool : List Issue) (i i' : Issue) (ev : List Event)
    (h : inferStep pool true i = .ok (i', ev)) (ts : List String)
    (hts : alGet i.issuelinks "Is relied upon by" = some ts) :
    ∀ t ∈ ts, ∃ u, get_issue pool t = some u ∧
      PRIORITY_TO_VALUE u.priority ≤ PRIORITY_TO_VALUE i'.priority := by
  intro t ht
  obtain ⟨ev0, pr0, hc, hd⟩ := inferStep_ok_inv pool true i i' ev h
  rcases hd with ⟨habs, _, _⟩ | ⟨ts2, hts2, hev0, hmax⟩
  · rw [habs] at hts; cases hts
  · rw [hts] at hts2
    injection hts2 with hts2
    subst hts2
    cases pr0 with
    | none =>
      have hnil : ts = [] := scanMax_none_nil pool ts hmax
      subst hnil
      cases ht
    | some p =>
      obtain ⟨u, hu, hle⟩ := scanMax_elem_le pool ts none p hmax t ht
      refine ⟨u, hu, le_trans hle ?_⟩
      rcases inferCompare_cases true i ev0 (some p) with ⟨hn, _⟩ |
        ⟨p', hp', ⟨hlt, _, he⟩ | ⟨_, hm, _⟩ | ⟨hgt, he⟩ | ⟨heq, he⟩⟩
      · cases hn
      · injection hp' with hp'
        subst hp'
        rw [he] at hc
        obtain ⟨h1, _⟩ := Prod.mk.injEq .. ▸ hc
        subst h1
        simp
      · cases hm
      · injection hp' with hp'
        subst hp'
        rw [he] at hc
        obtain ⟨h1, _⟩ := Prod.mk.injEq .. ▸ hc
        subst h1
        exact le_of_lt hgt
      · injection hp' with hp'
        subst hp'
        rw [he] at hc
        obtain ⟨h1, _⟩ := Prod.mk.injEq .. ▸ hc
        subst h1
        exact le_of_eq heq.symm

theorem inferStep_report_true (pool : List Issue) (i i' : Issue) (ev : List Event)
    (ts : List String) (p : Priority)
    (hts : alGet i.issuelinks "Is relied upon by" = some ts)
    (hmax : inferMax pool ts = .ok (some p))
    (hlt : PRIORITY_TO_VALUE i.priority < PRIORITY_TO_VALUE p)
    (h : inferStep pool true i = .ok (i', ev)) :
    i' = { i with priority := p } ∧
      ev = [Event.inconsistency i.key i.priority p,
            Event.changed i.key i.priority p] := by
  rw [inferStep_eq_ok pool true i ts (some p) hts hmax,
      inferCompare_lt_true i p [] hlt] at h
  simp only [List.nil_append, Except.ok.injEq, Prod.mk.injEq] at h
  exact ⟨h.1.symm, h.2.symm⟩

theorem inferStep_inc_mem (pool : List Issue) (m : Bool) (i i' : Issue)
    (ev : List Event) (k : String) (a b : Priority)
    (h : inferStep pool m i = .ok (i', ev))
    (hmem : Event.inconsistency k a b ∈ ev) :
    k = i.key ∧ a = i.priority ∧
      PRIORITY_TO_VALUE a < PRIORITY_TO_VALUE b ∧
      ∃ ts, alGet i.issuelinks "Is relied upon by" = some ts ∧
        inferMax pool ts = .ok (some b) := by
  obtain ⟨ev0, pr0, hc, hd⟩ := inferStep_ok_inv pool m i i' ev h
  rcases hd with ⟨habs, hev0, hpr0⟩ | ⟨ts, hts, hev0, hmax⟩
  · subst hev0
    subst hpr0
    rw [inferCompare_none] at hc
    obtain ⟨_, h2⟩ := Prod.mk.injEq .. ▸ hc
    subst h2
    simp at hmem
  · subst hev0
    rcases inferCompare_cases m i [] pr0 with ⟨hpr, he⟩ | ⟨p, hpr,
      ⟨hlt, _, he⟩ | ⟨hlt, _, he⟩ | ⟨hgt, he⟩ | ⟨heq, he⟩⟩
    all_goals subst hpr
    all_goals rw [he] at hc
    all_goals obtain ⟨_, h2⟩ := Prod.mk.injEq .. ▸ hc
    all_goals subst h2
    · simp at hmem
    · simp at hmem
      obtain ⟨hk, ha, hb⟩ := hmem
      subst hk; subst ha; subst hb
      exact ⟨rfl, rfl, hlt, ts, hts, hmax⟩
    · simp at hmem
      obtain ⟨hk, ha, hb⟩ := hmem
      subst hk; subst ha; subst hb
      exact ⟨rfl, rfl, hlt, ts, hts, hmax⟩
    · simp at hmem
    · simp at hmem

theorem inferStep_self_true (pool : List Issue) (i i' : Issue) (ev : List Event)
    (h : inferStep pool true i = .ok (i', ev)) :
    ∃ ev', inferStep pool true i' = .ok (i', ev') := by
  obtain ⟨ev0, pr0, hc, hd⟩ := inferStep_ok_inv pool true i i' ev h
  rcases inferCompare_cases true i ev0 pr0 with ⟨hpr, he⟩ | ⟨p, hpr,
    ⟨hlt, _, he⟩ | ⟨_, hm, _⟩ | ⟨hgt, he⟩ | ⟨heq, he⟩⟩
  · rw [he] at hc
    obtain ⟨h1, _⟩ := Prod.mk.injEq .. ▸ hc
    subst h1
    exact ⟨ev, h⟩
  · rw [he] at hc
    obtain ⟨h1, _⟩ := Prod.mk.injEq .. ▸ hc
    rcases hd with ⟨_, _, hpr0⟩ | ⟨ts, hts, hev0, hmax⟩
    · rw [hpr0] at hpr; cases hpr
    · subst hpr
      have hlinks : i'.issuelinks = i.issuelinks := by rw [← h1]
      have hpri : i'.priority = p := by rw [← h1]
      refine ⟨[], ?_⟩
      rw [inferStep_eq_ok pool true i' ts (some p)
            (by rw [hlinks]; exact hts) hmax,
          inferCompare_same true i' p [] (by rw [hpri])]
  · cases hm
  · rw [he] at hc
    obtain ⟨h1, _⟩ := Prod.mk.injEq .. ▸ hc
    subst h1
    exact ⟨ev, h⟩
  · rw [he] at hc
    obtain ⟨h1, _⟩ := Prod.mk.injEq .. ▸ hc
    subst h1
    exact ⟨ev, h⟩

theorem inferStep_err_dangling (pool : List Issue) (m : Bool) (i : Issue)
    (ts : List String) (hts : alGet i.issuelinks "Is relied upon by" = some ts)
    (hdang : ∃ t ∈ ts, get_issue pool t = none) :
    ∃ e, inferStep pool m i = .error e := by
  obtain ⟨e, he⟩ := scanMax_error_of_dangling pool ts hdang none
  exact ⟨e, inferStep_eq_err pool m i ts e hts he⟩

theorem checkStep_err_dangling (pool : List Issue) (m : Bool) (i : Issue)
    (ts : List String) (hts : alGet i.issuelinks "Relies on" = some ts)
    (hdang : ∃ t ∈ ts, get_issue pool t = none) :
    ∃ e, checkStep pool m i = .error e := by
  obtain ⟨e, he⟩ := scanMin_error_of_dangling pool ts hdang none
  exact ⟨e, checkStep_eq_err pool m i ts e hts he⟩

theorem checkStep_le (pool : List Issue) (m : Bool) (i i' : Issue)
    (ev : List Event) (h : checkStep pool m i = .ok (i', ev)) :
    PRIORITY_TO_VALUE i'.priority ≤ PRIORITY_TO_VALUE i.priority := by
  obtain ⟨ev0, pr0, hc, _⟩ := checkStep_ok_inv pool m i i' ev h
  rcases checkCompare_cases m i ev0 pr0 with ⟨_, he⟩ | ⟨p, _,
    ⟨hlt, _, he⟩ | ⟨_, _, he⟩ | ⟨_, he⟩ | ⟨_, he⟩⟩ <;>
    first
    | (rw [he] at hc
       obtain ⟨h1, _⟩ := Prod.mk.injEq .. ▸ hc
       subst h1
       exact le_refl _)
    | (rw [he] at hc
       obtain ⟨h1, _⟩ := Prod.mk.injEq .. ▸ hc
       subst h1
       exact le_of_lt hlt)

theorem checkStep_nomodify (pool : List Issue) (i i' : Issue)
    (ev : List Event) (h : checkStep pool false i = .ok (i', ev)) : i' = i := by
  obtain ⟨ev0, pr0, hc, _⟩ := checkStep_ok_inv pool false i i' ev h
  rcases checkCompare_cases false i ev0 pr0 with ⟨_, he⟩ | ⟨p, _,
    ⟨_, hm, _⟩ | ⟨_, _, he⟩ | ⟨_, he⟩ | ⟨_, he⟩⟩
  · rw [he] at hc
    exact ((Prod.mk.injEq .. ▸ hc).1).symm
  · cases hm
  · rw [he] at hc
    exact ((Prod.mk.injEq .. ▸ hc).1).symm
  · rw [he] at hc
    exact ((Prod.mk.injEq .. ▸ hc).1).symm
  · rw [he] at hc
    exact ((Prod.mk.injEq .. ▸ hc).1).symm

theorem checkStep_noPriority_mem (pool : List Issue) (m : Bool) (i i' : Issue)
    (ev : List Event) (h : checkStep pool m i = .ok (i', ev))
    (hempty : alGet i.issuelinks "Relies on" = none ∨
      alGet i.issuelinks "Relies on" = some []) :
    Event.noPriority i.key ∈ ev := by
  obtain ⟨ev0, pr0, hc, hd⟩ := checkStep_ok_inv pool m i i' ev h
  have hpr0 : pr0 = none := by
    rcases hd with ⟨_, _, hpr0⟩ | ⟨ts, hts, _, hmin⟩
    · exact hpr0
    · rcases hempty with habs | hnil
      · rw [habs] at hts; cases hts
      · rw [hnil] at hts
        injection hts with hts
        subst hts
        rw [checkMin, scanMin_nil] at hmin
        injection hmin with hmin
        exact hmin.symm
  subst hpr0
  rw [checkCompare_none] at hc
  obtain ⟨_, h2⟩ := Prod.mk.injEq .. ▸ hc
  subst h2
  simp

theorem checkStep_inc_mem (pool : List Issue) (m : Bool) (i i' : Issue)
    (ev : List Event) (k : String) (a b : Priority)
    (h : checkStep pool m i = .ok (i', ev))
    (hmem : Event.inconsistency k a b ∈ ev) :
    k = i.key ∧ a = i.priority ∧
      PRIORITY_TO_VALUE b < PRIORITY_TO_VALUE a ∧
      ∃ ts, alGet i.issuelinks "Relies on" = some ts ∧
        checkMin pool ts = .ok (some b) := by
  obtain ⟨ev0, pr0, hc, hd⟩ := checkStep_ok_inv pool m i i' ev h
  rcases hd with ⟨habs, hev0, hpr0⟩ | ⟨ts, hts, hev0, hmin⟩
  · subst hev0
    subst hpr0
    rw [checkCompare_none] at hc
    obtain ⟨_, h2⟩ := Prod.mk.injEq .. ▸ hc
    subst h2
    simp at hmem
  · subst hev0
    rcases checkCompare_cases m i [] pr0 with ⟨hpr, he⟩ | ⟨p, hpr,
      ⟨hlt, _, he⟩ | ⟨hlt, _, he⟩ | ⟨hgt, he⟩ | ⟨heq, he⟩⟩
    all_goals subst hpr
    all_goals rw [he] at hc
    all_goals obtain ⟨_, h2⟩ := Prod.mk.injEq .. ▸ hc
    all_goals subst h2
    · simp at hmem
    · simp at hmem
      obtain ⟨hk, ha, hb⟩ := hmem
      subst hk; subst ha; subst hb
      exact ⟨rfl, rfl, hlt, ts, hts, hmin⟩
    · simp at hmem
      obtain ⟨hk, ha, hb⟩ := hmem
      subst hk; subst ha; subst hb
      exact ⟨rfl, rfl, hlt, ts, hts, hmin⟩
    · simp at hmem
    · simp at hmem

theorem runPass_nil (step : Issue → Except String (Issue × List Event)) :
    runPass step [] = .ok ([], []) := rfl

theorem runPass_cons (step : Issue → Except String (Issue × List Event))
    (i : Issue) (rest : List Issue) :
    runPass step (i :: rest) = passCons (step i) (runPass step rest) := rfl

theorem runPass_cons_ok (step : Issue → Except String (Issue × List Event))
    (i i' : Issue) (rest rest' : List Issue) (ev1 ev2 : List Event)
    (hs : step i = .ok (i', ev1)) (hr : runPass step rest = .ok (rest', ev2)) :
    runPass step (i :: rest) = .ok (i' :: rest', ev1 ++ ev2) := by
  rw [runPass_cons, hs, hr]
  rfl

theorem runPass_cons_inv (step : Issue → Except String (Issue × List Event))
    (i : Issue) (rest out : List Issue) (ev : List Event)
    (h : runPass step (i :: rest) = .ok (out, ev)) :
    ∃ i' ev1 rest' ev2, step i = .ok (i', ev1) ∧
      runPass step rest = .ok (rest', ev2) ∧
      out = i' :: rest' ∧ ev = ev1 ++ ev2 := by
  rw [runPass_cons] at h
  cases hs : step i with
  | error e => rw [hs] at h; simp [passCons] at h
  | ok pair =>
    obtain ⟨i', ev1⟩ := pair
    rw [hs] at h
    cases hr : runPass step rest with
    | error e => rw [hr] at h; simp [passCons] at h
    | ok rpair =>
      obtain ⟨rest', ev2⟩ := rpair
      rw [hr] at h
      simp only [passCons, Except.ok.injEq, Prod.mk.injEq] at h
      exact ⟨i', ev1, rest', ev2, rfl, rfl, h.1.symm, h.2.symm⟩

theorem runPass_forall₂ (step : Issue → Except String (Issue × List Event))
    (l out : List Issue) (ev : List Event) (h : runPass step l = .ok (out, ev)) :
    List.Forall₂ (fun a b => ∃ ev1, step a = .ok (b, ev1)) l out := by
  induction l generalizing out ev with
  | nil =>
    rw [runPass_nil] at h
    simp only [Except.ok.injEq, Prod.mk.injEq] at h
    rw [← h.1]
    exact List.Forall₂.nil
  | cons i rest ih =>
    obtain ⟨i', ev1, rest', ev2, hs, hr, hout, _⟩ := runPass_cons_inv step i rest out ev h
    subst hout
    exact List.Forall₂.cons ⟨ev1, hs⟩ (ih rest' ev2 hr)

theorem runPass_mem_out (step : Issue → Except String (Issue × List Event))
    (l out : List Issue) (ev : List Event) (h : runPass step l = .ok (out, ev)) :
    ∀ i' ∈ out, ∃ i ∈ l, ∃ ev1, step i = .ok (i', ev1) := by
  induction l generalizing out ev with
  | nil =>
    rw [runPass_nil] at h
    simp only [Except.ok.injEq, Prod.mk.injEq] at h
    rw [← h.1]
    intro i' hi'
    cases hi'
  | cons i rest ih =>
    obtain ⟨i0, ev1, rest', ev2, hs, hr, hout, _⟩ := runPass_cons_inv step i rest out ev h
    subst hout
    intro i' hi'
    rcases List.mem_cons.mp hi' with rfl | hmem
    · exact ⟨i, List.mem_cons_self i rest, ev1, hs⟩
    · obtain ⟨j, hj, ev3, hj3⟩ := ih rest' ev2 hr i' hmem
      exact ⟨j, List.mem_cons_of_mem i hj, ev3, hj3⟩

theorem runPass_mem_events (step : Issue → Except String (Issue × List Event))
    (l out : List Issue) (ev : List Event) (h : runPass step l = .ok (out, ev))
    (i : Issue) (hi : i ∈ l) (i' : Issue) (ev1 : List Event)
    (hs : step i = .ok (i', ev1)) (e : Event) (he : e ∈ ev1) : e ∈ ev := by
  induction l generalizing out ev with
  | nil => cases hi
  | cons j rest ih =>
    obtain ⟨j', evj, rest', ev2, hj, hr, _, hev⟩ := runPass_cons_inv step j rest out ev h
    subst hev
    rcases List.mem_cons.mp hi with rfl | hmem
    · rw [hs] at hj
      simp only [Except.ok.injEq, Prod.mk.injEq] at hj
      exact List.mem_append_left _ (hj.2 ▸ he)
    · exact List.mem_append_right _ (ih rest' ev2 hr hmem)

theorem runPass_event_src (step : Issue → Except String (Issue × List Event))
    (l out : List Issue) (ev : List Event) (h : runPass step l = .ok (out, ev))
    (e : Event) (he : e ∈ ev) :
    ∃ i ∈ l, ∃ i' ev1, step i = .ok (i', ev1) ∧ e ∈ ev1 := by
  induction l generalizing out ev with
  | nil =>
    rw [runPass_nil] at h
    simp only [Except.ok.injEq, Prod.mk.injEq] at h
    rw [← h.2] at he
    cases he
  | cons i rest ih =>
    obtain ⟨i', ev1, rest', ev2, hs, hr, _, hev⟩ := runPass_cons_inv step i rest out ev h
    subst hev
    rcases List.mem_append.mp he with h1 | h2
    · exact ⟨i, List.mem_cons_self i rest, i', ev1, hs, h1⟩
    · obtain ⟨j, hj, j', evj, hjs, hje⟩ := ih rest' ev2 hr h2
      exact ⟨j, List.mem_cons_of_mem i hj, j', evj, hjs, hje⟩

theorem runPass_error_of_mem (step : Issue → Except String (Issue × List Event))
    (l : List Issue) (i : Issue) (hi : i ∈ l) (e0 : String)
    (hs : step i = .error e0) : ∃ e, runPass step l = .error e := by
  induction l with
  | nil => cases hi
  | cons j rest ih =>
    rw [runPass_cons]
    cases hj : step j with
    | error e => exact ⟨e, rfl⟩
    | ok pair =>
      rcases List.mem_cons.mp hi with rfl | hmem
      · rw [hj] at hs; cases hs
      · obtain ⟨e, he⟩ := ih hmem
        rw [he]
        obtain ⟨j', evj⟩ := pair
        exact ⟨e, rfl⟩

theorem runPass_self (step : Issue → Except String (Issue × List Event))
    (l out : List Issue) (ev : List Event) (h : runPass step l = .ok (out, ev))
    (hstep : ∀ a ∈ l, ∀ b ev1, step a = .ok (b, ev1) → ∃ ev2, step b = .ok (b, ev2)) :
    ∃ ev', runPass step out = .ok (out, ev') := by
  induction l generalizing out ev with
  | nil =>
    rw [runPass_nil] at h
    simp only [Except.ok.injEq, Prod.mk.injEq] at h
    rw [← h.1]
    exact ⟨[], rfl⟩
  | cons i rest ih =>
    obtain ⟨i', ev1, rest', ev2, hs, hr, hout, _⟩ := runPass_cons_inv step i rest out ev h
    subst hout
    obtain ⟨ev3, hself⟩ := hstep i (List.mem_cons_self i rest) i' ev1 hs
    obtain ⟨ev4, hrest⟩ := ih rest' ev2 hr
      (fun a ha b evb hb => hstep a (List.mem_cons_of_mem i ha) b evb hb)
    exact ⟨ev3 ++ ev4, runPass_cons_ok step i' i' rest' rest' ev3 ev4 hself hrest⟩

theorem runPass_countP_zero (step : Issue → Except String (Issue × List Event))
    (l out : List Issue) (ev : List Event) (h : runPass step l = .ok (out, ev))
    (q : Event → Bool)
    (hall : ∀ j ∈ l, ∀ j' ev1, step j = .ok (j', ev1) → ev1.countP q = 0) :
    ev.countP q = 0 := by
  induction l generalizing out ev with
  | nil =>
    rw [runPass_nil] at h
    simp only [Except.ok.injEq, Prod.mk.injEq] at h
    rw [← h.2]
    rfl
  | cons i rest ih =>
    obtain ⟨i', ev1, rest', ev2, hs, hr, _, hev⟩ := runPass_cons_inv step i rest out ev h
    subst hev
    rw [List.countP_append]
    rw [hall i (List.mem_cons_self i rest) i' ev1 hs,
      ih rest' ev2 hr (fun j hj => hall j (List.mem_cons_of_mem i hj))]

theorem runPass_countP_one (step : Issue → Except String (Issue × List Event))
    (l out : List Issue) (ev : List Event) (h : runPass step l = .ok (out, ev))
    (q : Event → Bool) (i : Issue) (hi : i ∈ l)
    (hkeys : (l.map Issue.key).Nodup)
    (hone : ∀ i' ev1, step i = .ok (i', ev1) → ev1.countP q = 1)
    (hzero : ∀ j, j.key ≠ i.key → ∀ j' ev1, step j = .ok (j', ev1) → ev1.countP q = 0) :
    ev.countP q = 1 := by
  induction l generalizing out ev with
  | nil => cases hi
  | cons j rest ih =>
    obtain ⟨j', ev1, rest', ev2, hs, hr, _, hev⟩ := runPass_cons_inv step j rest out ev h
    subst hev
    rw [List.countP_append]
    rw [List.map_cons, List.nodup_cons] at hkeys
    rcases List.mem_cons.mp hi with rfl | hmem
    · rw [hone j' ev1 hs]
      have hz : ev2.countP q = 0 := by
        refine runPass_countP_zero step rest rest' ev2 hr q ?_
        intro a ha a' eva hsa
        refine hzero a ?_ a' eva hsa
        intro hkey
        exact hkeys.1 (hkey ▸ List.mem_map_of_mem Issue.key ha)
      rw [hz]
    · have hjk : j.key ≠ i.key := by
        intro hkey
        exact hkeys.1 (hkey ▸ List.mem_map_of_mem Issue.key hmem)
      rw [hzero j hjk j' ev1 hs]
      rw [ih rest' ev2 hr hmem hkeys.2]

theorem runPass_mem_in (step : Issue → Except String (Issue × List Event))
    (l out : List Issue) (ev : List Event) (h : runPass step l = .ok (out, ev)) :
    ∀ i ∈ l, ∃ i' ∈ out, ∃ ev1, step i = .ok (i', ev1) := by
  induction l generalizing out ev with
  | nil => intro i hi; cases hi
  | cons j rest ih =>
    obtain ⟨j', ev1, rest', ev2, hs, hr, hout, _⟩ := runPass_cons_inv step j rest out ev h
    subst hout
    intro i hi
    rcases List.mem_cons.mp hi with rfl | hmem
    · exact ⟨j', List.mem_cons_self j' rest', ev1, hs⟩
    · obtain ⟨i', hi', ev3, hs3⟩ := ih rest' ev2 hr i hmem
      exact ⟨i', List.mem_cons_of_mem j' hi', ev3, hs3⟩

/-- Claim C1: for every Feature and every Policy, after pass 1
(`infer_feature_policy_priorities`) runs with its modify flag enabled (the
default), the issue's priority is greater than or equal to the maximum
priority over the issues reachable via its `'Is relied upon by'` links, and
any issue whose priority was strictly below that maximum before the pass is
reported as an inconsistency exactly once and its priority is overwritten to
the inferred maximum. -/
theorem C1_pass1_inference (user_stories other fp fp' : List Issue)
    (ev : List Event) (hkeys : (fp.map Issue.key).Nodup)
    (h : infer_feature_policy_priorities user_stories other fp true = .ok (fp', ev)) :
    (∀ i' ∈ fp', ∀ ts, alGet i'.issuelinks "Is relied upon by" = some ts →
       ∀ t ∈ ts, ∃ u, get_issue (user_stories ++ other) t = some u ∧
         PRIORITY_TO_VALUE u.priority ≤ PRIORITY_TO_VALUE i'.priority) ∧
    (∀ i ∈ fp, ∀ ts p, alGet i.issuelinks "Is relied upon by" = some ts →
       inferMax (user_stories ++ other) ts = .ok (some p) →
       PRIORITY_TO_VALUE i.priority < PRIORITY_TO_VALUE p →
       { i with priority := p } ∈ fp' ∧
       ev.countP (fun e => e == Event.inconsistency i.key i.priority p) = 1) := by
  rw [infer_feature_policy_priorities] at h
  constructor
  · intro i' hi' ts hts t ht
    obtain ⟨i, hi, ev1, hs⟩ := runPass_mem_out _ fp fp' ev h i' hi'
    obtain ⟨_, hlinks, _, _⟩ := inferStep_fields _ true i i' ev1 hs
    rw [hlinks] at hts
    exact inferStep_post_true _ i i' ev1 hs ts hts t ht
  · intro i hi ts p hts hmax hlt
    obtain ⟨i', hi', ev1, hs⟩ := runPass_mem_in _ fp fp' ev h i hi
    obtain ⟨hieq, hev1⟩ := inferStep_report_true _ i i' ev1 ts p hts hmax hlt hs
    refine ⟨hieq ▸ hi', ?_⟩
    refine runPass_countP_one _ fp fp' ev h _ i hi hkeys ?_ ?_
    · intro i'' ev2 hs2
      rw [hs] at hs2
      simp only [Except.ok.injEq, Prod.mk.injEq] at hs2
      rw [← hs2.2, hev1]
      simp [List.countP_cons]
    · intro j hjk j' ev2 hs2
      rw [List.countP_eq_zero]
      intro e he hq
      rw [beq_iff_eq] at hq
      subst hq
      obtain ⟨hk, _, _, _⟩ := inferStep_inc_mem _ true j j' ev2 _ _ _ hs2 he
      exact hjk (hk ▸ rfl)

/-- Claim C1 witness: a Low feature relied upon by a Critical story is
reported once and raised to Critical by pass 1. -/
theorem C1_witness :
    ({ feat1 with priority := Priority.Critical } ∈
       [{ feat1 with priority := Priority.Critical }]) ∧
    ([Event.inconsistency "IRS-1" Priority.Low Priority.Critical,
      Event.changed "IRS-1" Priority.Low Priority.Critical].countP
        (fun e => e == Event.inconsistency feat1.key feat1.priority Priority.Critical) = 1) :=
  (C1_pass1_inference [story1] [] [feat1] _ _ (by decide) rfl).2 feat1
    (by decide) ["IRS-10"] Priority.Critical rfl rfl (by decide)

/-- Claim C3: pass 2 (`check_story_priorities`) infers the MIN over the
`'Relies on'` reachable set (Low with a note when empty), never raises a
story's priority under any modify setting, leaves every story unchanged
under the default `modify=false`, and reports an inconsistency only for a
story whose priority exceeds the inferred minimum. -/
theorem C3_pass2_check (features policies user_stories out : List Issue)
    (ev : List Event) (modify : Bool)
    (h : check_story_priorities features policies user_stories modify = .ok (out, ev)) :
    List.Forall₂
      (fun s s' => PRIORITY_TO_VALUE s'.priority ≤ PRIORITY_TO_VALUE s.priority)
      user_stories out ∧
    (modify = false → out = user_stories) ∧
    (∀ s ∈ user_stories,
       (alGet s.issuelinks "Relies on" = none ∨
        alGet s.issuelinks "Relies on" = some []) →
       Event.noPriority s.key ∈ ev) ∧
    (∀ ts p, checkMin (features ++ policies) ts = .ok (some p) →
       (∃ t ∈ ts, ∃ u, get_issue (features ++ policies) t = some u ∧
          u.priority = p) ∧
       (∀ t ∈ ts, ∃ u, get_issue (features ++ policies) t = some u ∧
          PRIORITY_TO_VALUE p ≤ PRIORITY_TO_VALUE u.priority)) ∧
    (∀ k a b, Event.inconsistency k a b ∈ ev →
       ∃ s ∈ user_stories, s.key = k ∧ s.priority = a ∧
         PRIORITY_TO_VALUE b < PRIORITY_TO_VALUE a ∧
         ∃ ts, alGet s.issuelinks "Relies on" = some ts ∧
           checkMin (features ++ policies) ts = .ok (some b)) := by
  rw [check_story_priorities] at h
  refine ⟨?_, ?_, ?_, ?_, ?_⟩
  · exact (runPass_forall₂ _ user_stories out ev h).imp
      (fun a b hab => by
        obtain ⟨ev1, hs⟩ := hab
        exact checkStep_le _ modify a b ev1 hs)
  · intro hm
    subst hm
    have h2 := (runPass_forall₂ _ user_stories out ev h).imp
      (fun a b hab => by
        obtain ⟨ev1, hs⟩ := hab
        exact (checkStep_nomodify _ a b ev1 hs).symm)
    exact (List.forall₂_eq_eq_eq ▸ h2).symm
  · intro s hs hempty
    obtain ⟨s', _, ev1, hstep⟩ := runPass_mem_in _ user_stories out ev h s hs
    exact runPass_mem_events _ user_stories out ev h s hs s' ev1 hstep _
      (checkStep_noPriority_mem _ modify s s' ev1 hstep hempty)
  · intro ts p hmin
    constructor
    · rcases scanMin_attained (features ++ policies) ts none p hmin with hnone | hatt
      · cases hnone
      · exact hatt
    · exact scanMin_elem_ge (features ++ policies) ts none p hmin
  · intro k a b hmem
    obtain ⟨s, hs, s', ev1, hstep, he1⟩ := runPass_event_src _ user_stories out ev h _ hmem
    obtain ⟨hk, ha, hba, ts, hts, hmin⟩ := checkStep_inc_mem _ modify s s' ev1 k a b hstep he1
    exact ⟨s, hs, hk.symm, ha.symm, hba, ts, hts, hmin⟩

/-- Claim C3 witness: a Critical story relying only on a Low feature is
reported as inconsistent against the inferred minimum Low and left
unchanged by the default non-modifying pass 2. -/
theorem C3_witness :
    ∃ s ∈ ([story1] : List Issue), s.key = "IRS-10" ∧ s.priority = Priority.Critical ∧
      PRIORITY_TO_VALUE Priority.Low < PRIORITY_TO_VALUE Priority.Critical ∧
      ∃ ts, alGet s.issuelinks "Relies on" = some ts ∧
        checkMin ([feat1] ++ []) ts = .ok (some Priority.Low) :=
  (C3_pass2_check [feat1] [] [story1] _ _ false rfl).2.2.2.2 "IRS-10"
    Priority.Critical Priority.Low (by decide)

/-- Claim C4 (amended): a reliance target that the reconciliation engine
itself fails to resolve in the collection it searches aborts the pass (and
hence the run) with a raised exception, in both passes. -/
theorem C4_engine_dangling_fatal :
    (∀ user_stories other fp : List Issue, ∀ modify : Bool,
       (∃ i ∈ fp, ∃ ts, alGet i.issuelinks "Is relied upon by" = some ts ∧
          ∃ t ∈ ts, get_issue (user_stories ++ other) t = none) →
       ∃ e, infer_feature_policy_priorities user_stories other fp modify = .error e) ∧
    (∀ features policies user_stories : List Issue, ∀ modify : Bool,
       (∃ s ∈ user_stories, ∃ ts, alGet s.issuelinks "Relies on" = some ts ∧
          ∃ t ∈ ts, get_issue (features ++ policies) t = none) →
       ∃ e, check_story_priorities features policies user_stories modify = .error e) := by
  constructor
  · intro user_stories other fp modify ⟨i, hi, ts, hts, hdang⟩
    obtain ⟨e0, he0⟩ := inferStep_err_dangling (user_stories ++ other) modify i ts hts hdang
    rw [infer_feature_policy_priorities]
    exact runPass_error_of_mem _ fp i hi e0 he0
  · intro features policies user_stories modify ⟨s, hs, ts, hts, hdang⟩
    obtain ⟨e0, he0⟩ := checkStep_err_dangling (features ++ policies) modify s ts hts hdang
    rw [check_story_priorities]
    exact runPass_error_of_mem _ user_stories s hs e0 he0

/-- Claim C4 witness: a story whose only `Relies on` target exists nowhere
makes pass 2 raise. -/
theorem C4_witness :
    ∃ e, check_story_priorities [] [] [storyD] false = .error e :=
  C4_engine_dangling_fatal.2 [] [] [storyD] false
    ⟨storyD, by decide, ["IRS-999"], rfl, "IRS-999", by decide, rfl⟩

/-- Claim C4 counterexample: a Feature whose only `'Is relied upon by'`
target `IRS-999` resolves to no issue at all does NOT abort the run; the
graph assembler drops the link with a warning before the engine runs, and
the engine then falls through to the empty-set "no priority calculated"
(Low) case, so the pipeline returns successfully. -/
theorem C4_counterexample :
    reconcile [featD] [] [] =
      .ok (([{ featD with issuelinks :=
                 [("Is relied upon by", []), ("User story groups", [])] }], [], []),
        [Event.nonStoryLink "IRS-999" "IRS-3", Event.noPriority "IRS-3"]) ∧
    get_issue ([featD] ++ [] ++ []) "IRS-999" = none :=
  ⟨rfl, rfl⟩

/-- Claim C2 (code bug evaluation): in the full pipeline the policy `IRS-2`,
relied upon solely by feature `IRS-1` (raised Low -> Critical by pass 1),
keeps priority Low: `add_story_epics` drops the non-story target `IRS-1`
from the policy's `'Is relied upon by'` links before the engine runs, so the
already-processed feature never enters the policy's reachable set.  Had the
link survived (second conjunct), the engine would have observed the
corrected feature priority and raised the policy to Critical, as the
docstring of `infer_feature_policy_priorities` describes. -/
theorem C2_policy_ignores_feature_priority :
    reconcile [feat1] [pol1] [story1] =
      .ok (([{ feat1 with
                 priority := Priority.Critical
                 issuelinks := [("Is relied upon by", ["IRS-10"]),
                                ("User story groups", ["EpicA"])] }],
            [{ pol1 with issuelinks := [("Is relied upon by", []),
                                        ("User story groups", [])] }],
            [story1]),
        [Event.nonStoryLink "IRS-1" "IRS-2",
         Event.inconsistency "IRS-1" Priority.Low Priority.Critical,
         Event.changed "IRS-1" Priority.Low Priority.Critical,
         Event.noPriority "IRS-2"]) ∧
    infer_feature_policy_priorities [story1]
        [{ feat1 with priority := Priority.Critical }] [pol1] true =
      .ok ([{ pol1 with priority := Priority.Critical }],
        [Event.inconsistency "IRS-2" Priority.Low Priority.Critical,
         Event.changed "IRS-2" Priority.Low Priority.Critical]) :=
  ⟨rfl, rfl⟩

theorem issue_eq_update (a b : Issue) (h1 : a.key = b.key)
    (h2 : a.issuelinks = b.issuelinks) (h3 : a.epic_name = b.epic_name)
    (h4 : a.days = b.days) : a = { b with priority := a.priority } := by
  cases a
  cases b
  simp_all

theorem epicStep_pos (sbk : List (String × Issue)) (i : Issue) (ts : List String)
    (hne : i.issuelinks ≠ []) (hts : alGet i.issuelinks "Is relied upon by" = some ts) :
    epicStep sbk i =
      ({ i with issuelinks := epicLinks sbk i.issuelinks ts },
        (epicDropped sbk ts).map (fun t => Event.nonStoryLink t i.key)) := by
  rw [epicStep, if_pos ⟨hne, by rw [hts]; rfl⟩]
  simp only [hts, Option.getD_some]

theorem epicStep_neg (sbk : List (String × Issue)) (i : Issue)
    (h : i.issuelinks = [] ∨ alGet i.issuelinks "Is relied upon by" = none) :
    epicStep sbk i =
      ({ i with issuelinks := alSet i.issuelinks "User story groups" [] }, []) := by
  rw [epicStep, if_neg]
  rintro ⟨h1, h2⟩
  rcases h with he | he
  · exact h1 he
  · rw [he] at h2
    cases h2

theorem epicCond_neg (i : Issue)
    (hc : ¬(i.issuelinks ≠ [] ∧ (alGet i.issuelinks "Is relied upon by").isSome = true)) :
    i.issuelinks = [] ∨ alGet i.issuelinks "Is relied upon by" = none := by
  by_cases hnil : i.issuelinks = []
  · exact Or.inl hnil
  · right
    rcases hg : alGet i.issuelinks "Is relied upon by" with _ | v
    · rfl
    · exact absurd ⟨hnil, by rw [hg]; rfl⟩ hc

theorem epicKeep_all (sbk : List (String × Issue)) (ts : List String) :
    ∀ t ∈ epicKeep sbk ts, (alGet sbk t).isSome = true := by
  intro t ht
  exact (List.mem_filter.mp ht).2

theorem epicKeep_keep (sbk : List (String × Issue)) (ts : List String) :
    epicKeep sbk (epicKeep sbk ts) = epicKeep sbk ts :=
  List.filter_eq_self.mpr (epicKeep_all sbk ts)

theorem epicDropped_keep (sbk : List (String × Issue)) (ts : List String) :
    epicDropped sbk (epicKeep sbk ts) = [] := by
  rw [epicDropped, List.filter_eq_nil_iff]
  intro t ht
  rw [epicKeep_all sbk ts t ht]
  decide

theorem epicLinks_get_relied (sbk : List (String × Issue))
    (links : List (String × List String)) (ts : List String) :
    alGet (epicLinks sbk links ts) "Is relied upon by" = some (epicKeep sbk ts) := by
  rw [epicLinks, alGet_alSet_ne _ _ _ _ (by decide), alGet_alSet_self]

theorem epicLinks_get_groups (sbk : List (String × Issue))
    (links : List (String × List String)) (ts : List String) :
    alGet (epicLinks sbk links ts) "User story groups" =
      some (epicNamesOf sbk (epicKeep sbk ts)) := by
  rw [epicLinks, alGet_alSet_self]

theorem epicLinks_ne_nil (sbk : List (String × Issue))
    (links : List (String × List String)) (ts : List String) :
    epicLinks sbk links ts ≠ [] := by
  rw [epicLinks]
  exact alSet_ne_nil _ _ _

theorem epicStep_idem (sbk : List (String × Issue)) (i y : Issue) (ev : List Event)
    (h : epicStep sbk i = (y, ev)) : epicStep sbk y = (y, []) := by
  by_cases hc : i.issuelinks ≠ [] ∧ (alGet i.issuelinks "Is relied upon by").isSome = true
  · obtain ⟨hne, hsome⟩ := hc
    obtain ⟨ts, hts⟩ := Option.isSome_iff_exists.mp hsome
    rw [epicStep_pos sbk i ts hne hts] at h
    obtain ⟨hy, _⟩ := Prod.mk.injEq .. ▸ h
    have hylinks : y.issuelinks = epicLinks sbk i.issuelinks ts := by rw [← hy]
    have hgetA : alGet y.issuelinks "Is relied upon by" = some (epicKeep sbk ts) := by
      rw [hylinks, epicLinks_get_relied]
    have hyne : y.issuelinks ≠ [] := by
      rw [hylinks]
      exact epicLinks_ne_nil sbk _ ts
    rw [epicStep_pos sbk y (epicKeep sbk ts) hyne hgetA, epicDropped_keep]
    have hLinksEq : epicLinks sbk y.issuelinks (epicKeep sbk ts) = y.issuelinks := by
      rw [epicLinks, epicKeep_keep, alSet_get_self _ _ _ hgetA, alSet_get_self]
      rw [hylinks, epicLinks_get_groups]
    rw [hLinksEq]
    rfl
  · have hd := epicCond_neg i hc
    rw [epicStep_neg sbk i hd] at h
    obtain ⟨hy, _⟩ := Prod.mk.injEq .. ▸ h
    have hylinks : y.issuelinks = alSet i.issuelinks "User story groups" [] := by
      rw [← hy]
    have hgetA : alGet y.issuelinks "Is relied upon by" =
        alGet i.issuelinks "Is relied upon by" := by
      rw [hylinks, alGet_alSet_ne _ _ _ _ (by decide)]
    have hgetB : alGet y.issuelinks "User story groups" = some [] := by
      rw [hylinks, alGet_alSet_self]
    have hd2 : y.issuelinks = [] ∨ alGet y.issuelinks "Is relied upon by" = none := by
      right
      rcases hd with hnil | hnone
      · rw [hgetA, hnil]
        rfl
      · rw [hgetA, hnone]
    rw [epicStep_neg sbk y hd2, alSet_get_self _ _ _ hgetB]

theorem epicStep_priority (sbk : List (String × Issue)) (i : Issue) (p : Priority) :
    epicStep sbk { i with priority := p } =
      ({ (epicStep sbk i).1 with priority := p }, (epicStep sbk i).2) := by
  have hlinks : ({ i with priority := p } : Issue).issuelinks = i.issuelinks := rfl
  by_cases hc : i.issuelinks ≠ [] ∧ (alGet i.issuelinks "Is relied upon by").isSome = true
  · obtain ⟨hne, hsome⟩ := hc
    obtain ⟨ts, hts⟩ := Option.isSome_iff_exists.mp hsome
    rw [epicStep_pos sbk i ts hne hts,
      epicStep_pos sbk { i with priority := p } ts (by rw [hlinks]; exact hne)
        (by rw [hlinks]; exact hts)]
  · have hd := epicCond_neg i hc
    rw [epicStep_neg sbk i hd,
      epicStep_neg sbk { i with priority := p } (by rw [hlinks]; exact hd)]

theorem add_story_epics_clean (issues : List Issue) (sbk : List (String × Issue))
    (out : List Issue) (ev : List Event) (h : add_story_epics issues sbk = (out, ev)) :
    ∀ y ∈ out, epicStep sbk y = (y, []) := by
  intro y hy
  obtain ⟨hout, _⟩ := Prod.mk.injEq .. ▸ h
  rw [← hout] at hy
  simp only [List.map_map, List.mem_map] at hy
  obtain ⟨x, _, hx⟩ := hy
  exact epicStep_idem sbk x y (epicStep sbk x).2 (by rw [← hx]; rfl)

theorem add_story_epics_of_clean (issues : List Issue) (sbk : List (String × Issue))
    (hall : ∀ i ∈ issues, epicStep sbk i = (i, [])) :
    add_story_epics issues sbk = (issues, []) := by
  induction issues with
  | nil => rfl
  | cons i rest ih =>
    have hi := hall i (List.mem_cons_self i rest)
    have hrest := ih (fun j hj => hall j (List.mem_cons_of_mem i hj))
    simp only [add_story_epics, List.map_cons] at hrest ⊢
    obtain ⟨h1, h2⟩ := Prod.mk.injEq .. ▸ hrest
    rw [hi]
    simp only [List.map_cons, List.flatten_cons]
    rw [h1, h2]
    rfl

theorem clean_after_infer (us other F1 F2 : List Issue) (ev : List Event)
    (sbk : List (String × Issue))
    (hclean : ∀ y ∈ F1, epicStep sbk y = (y, []))
    (h : infer_feature_policy_priorities us other F1 true = .ok (F2, ev)) :
    ∀ f ∈ F2, epicStep sbk f = (f, []) := by
  intro f hf
  rw [infer_feature_policy_priorities] at h
  obtain ⟨y, hy, ev1, hs⟩ := runPass_mem_out _ F1 F2 ev h f hf
  obtain ⟨hk, hl, he, hd⟩ := inferStep_fields _ true y f ev1 hs
  have hfy : f = { y with priority := f.priority } := issue_eq_update f y hk hl he hd
  rw [hfy, epicStep_priority sbk y f.priority, hclean y hy]

theorem infer_pass_self (us other fp fp' : List Issue) (ev : List Event)
    (h : infer_feature_policy_priorities us other fp true = .ok (fp', ev)) :
    ∃ ev', infer_feature_policy_priorities us other fp' true = .ok (fp', ev') := by
  rw [infer_feature_policy_priorities] at h ⊢
  exact runPass_self _ fp fp' ev h
    (fun a _ b ev1 hb => inferStep_self_true _ a b ev1 hb)

theorem check_nomodify_eq (f p s out : List Issue) (ev : List Event)
    (h : check_story_priorities f p s false = .ok (out, ev)) : out = s := by
  rw [check_story_priorities] at h
  have h2 := (runPass_forall₂ _ s out ev h).imp
    (fun a b hab => by
      obtain ⟨ev1, hs⟩ := hab
      exact (checkStep_nomodify _ a b ev1 hs).symm)
  exact (List.forall₂_eq_eq_eq ▸ h2).symm

theorem reconcile_eq_ok (features policies us F1 P1 F2 P2 S2 : List Issue)
    (e1 e2 e3 e4 e5 : List Event)
    (h1 : add_story_epics features (buildByKey us) = (F1, e1))
    (h2 : add_story_epics policies (buildByKey us) = (P1, e2))
    (h3 : infer_feature_policy_priorities us [] F1 true = .ok (F2, e3))
    (h4 : infer_feature_policy_priorities us F2 P1 true = .ok (P2, e4))
    (h5 : check_story_priorities F2 P2 us false = .ok (S2, e5)) :
    reconcile features policies us =
      .ok ((F2, P2, S2), (((e1 ++ e2) ++ e3) ++ e4) ++ e5) := by
  have h1a : (add_story_epics features (buildByKey us)).1 = F1 := by rw [h1]
  have h1b : (add_story_epics features (buildByKey us)).2 = e1 := by rw [h1]
  have h2a : (add_story_epics policies (buildByKey us)).1 = P1 := by rw [h2]
  have h2b : (add_story_epics policies (buildByKey us)).2 = e2 := by rw [h2]
  have hb : reconcile features policies us =
      reconcileAfterE us (add_story_epics policies (buildByKey us)).1
        ((add_story_epics features (buildByKey us)).2 ++
          (add_story_epics policies (buildByKey us)).2)
        (infer_feature_policy_priorities us []
          (add_story_epics features (buildByKey us)).1 true) := rfl
  rw [hb, h1a, h1b, h2a, h2b, h3]
  simp only [reconcileAfterE]
  rw [h4]
  simp only [reconcileAfterF]
  rw [h5]
  simp only [reconcileAfterP]

theorem reconcile_ok_inv (features policies us : List Issue)
    (out : (List Issue × List Issue × List Issue) × List Event)
    (h : reconcile features policies us = .ok out) :
    ∃ F1 e1 P1 e2 F2 e3 P2 e4 S2 e5,
      add_story_epics features (buildByKey us) = (F1, e1) ∧
      add_story_epics policies (buildByKey us) = (P1, e2) ∧
      infer_feature_policy_priorities us [] F1 true = .ok (F2, e3) ∧
      infer_feature_policy_priorities us F2 P1 true = .ok (P2, e4) ∧
      check_story_priorities F2 P2 us false = .ok (S2, e5) ∧
      out.1 = (F2, P2, S2) := by
  rcases hfe : add_story_epics features (buildByKey us) with ⟨F1, e1⟩
  rcases hpe : add_story_epics policies (buildByKey us) with ⟨P1, e2⟩
  have h1a : (add_story_epics features (buildByKey us)).1 = F1 := by rw [hfe]
  have h1b : (add_story_epics features (buildByKey us)).2 = e1 := by rw [hfe]
  have h2a : (add_story_epics policies (buildByKey us)).1 = P1 := by rw [hpe]
  have h2b : (add_story_epics policies (buildByKey us)).2 = e2 := by rw [hpe]
  have hb : reconcile features policies us =
      reconcileAfterE us (add_story_epics policies (buildByKey us)).1
        ((add_story_epics features (buildByKey us)).2 ++
          (add_story_epics policies (buildByKey us)).2)
        (infer_feature_policy_priorities us []
          (add_story_epics features (buildByKey us)).1 true) := rfl
  rw [hb, h1a, h1b, h2a, h2b] at h
  cases h3 : infer_feature_policy_priorities us [] F1 true with
  | error e =>
    rw [h3] at h
    simp [reconcileAfterE] at h
  | ok fr =>
    obtain ⟨F2, e3⟩ := fr
    rw [h3] at h
    simp only [reconcileAfterE] at h
    cases h4 : infer_feature_policy_priorities us F2 P1 true with
    | error e =>
      rw [h4] at h
      simp [reconcileAfterF] at h
    | ok pr =>
      obtain ⟨P2, e4⟩ := pr
      rw [h4] at h
      simp only [reconcileAfterF] at h
      cases h5 : check_story_priorities F2 P2 us false with
      | error e =>
        rw [h5] at h
        simp [reconcileAfterP] at h
      | ok sr =>
        obtain ⟨S2, e5⟩ := sr
        rw [h5] at h
        simp only [reconcileAfterP, Except.ok.injEq] at h
        refine ⟨F1, e1, P1, e2, F2, e3, P2, e4, S2, e5, rfl, rfl, h3, h4, h5, ?_⟩
        rw [← h]

/-- Claim C5: the reconciliation pipeline is a fixed point on its own
output: if the run over a raw issue set succeeds and produces the
reconciled collections `(F, P, S)`, then running the full pipeline again
over `(F, P, S)` succeeds and returns exactly `(F, P, S)` — no issue's
priority (or any other field) is corrected on the second run, so the
grouped output, a function of these collections, is identical. -/
theorem C5_reconcile_idempotent (features policies user_stories F P S : List Issue)
    (ev : List Event)
    (h : reconcile features policies user_stories = .ok ((F, P, S), ev)) :
    ∃ ev₂, reconcile F P S = .ok ((F, P, S), ev₂) := by
  obtain ⟨F1, e1, P1, e2, F2, e3, P2, e4, S2, e5, hfe, hpe, h3, h4, h5, hout⟩ :=
    reconcile_ok_inv features policies user_stories ((F, P, S), ev) h
  obtain ⟨hF, hPS⟩ := Prod.mk.injEq .. ▸ hout
  obtain ⟨hP, hS⟩ := Prod.mk.injEq .. ▸ hPS
  subst hF
  subst hP
  subst hS
  have hSus : S = user_stories := check_nomodify_eq F P user_stories S e5 h5
  subst hSus
  have hcF1 := add_story_epics_clean features _ F1 e1 hfe
  have hcF := clean_after_infer S [] F1 F e3 _ hcF1 h3
  have hcP1 := add_story_epics_clean policies _ P1 e2 hpe
  have hcP := clean_after_infer S F P1 P e4 _ hcP1 h4
  have hfe2 : add_story_epics F (buildByKey S) = (F, []) :=
    add_story_epics_of_clean F _ hcF
  have hpe2 : add_story_epics P (buildByKey S) = (P, []) :=
    add_story_epics_of_clean P _ hcP
  obtain ⟨e3', h3'⟩ := infer_pass_self S [] F1 F e3 h3
  obtain ⟨e4', h4'⟩ := infer_pass_self S F P1 P e4 h4
  exact ⟨(((([] : List Event) ++ []) ++ e3') ++ e4') ++ e5,
    reconcile_eq_ok F P S F P F P S [] [] e3' e4' e5
      hfe2 hpe2 h3' h4' h5⟩

/-- Claim C5 witness: the reconciled output of the feature/policy/story
example is a fixed point of the pipeline. -/
theorem C5_witness :
    ∃ ev₂,
      reconcile
        [{ feat1 with
             priority := Priority.Critical
             issuelinks := [("Is relied upon by", ["IRS-10"]),
                            ("User story groups", ["EpicA"])] }]
        [{ pol1 with issuelinks := [("Is relied upon by", []),
                                    ("User story groups", [])] }]
        [story1] =
      .ok (([{ feat1 with
                 priority := Priority.Critical
                 issuelinks := [("Is relied upon by", ["IRS-10"]),
                                ("User story groups", ["EpicA"])] }],
            [{ pol1 with issuelinks := [("Is relied upon by", []),
                                        ("User story groups", [])] }],
            [story1]), ev₂) :=
  C5_reconcile_idempotent [feat1] [pol1] [story1] _ _ _ _ rfl

theorem insertBy_perm {α : Type} (le : α → α → Bool) (a : α) (l : List α) :
    (insertBy le a l).Perm (a :: l) := by
  induction l with
  | nil => exact List.Perm.refl _
  | cons b bs ih =>
    by_cases h : le a b = true
    · rw [insertBy, if_pos h]
    · rw [insertBy, if_neg h]
      exact (ih.cons b).trans (List.Perm.swap a b bs)

theorem sortBy_perm {α : Type} (le : α → α → Bool) (l : List α) :
    (sortBy le l).Perm l := by
  induction l with
  | nil => exact List.Perm.refl _
  | cons a rest ih =>
    rw [sortBy]
    exact (insertBy_perm le a (sortBy le rest)).trans (ih.cons a)

theorem insertBy_pairwise {α : Type} (le : α → α → Bool)
    (htot : ∀ a b, le a b = true ∨ le b a = true)
    (htrans : ∀ a b c, le a b = true → le b c = true → le a c = true)
    (a : α) (l : List α) (hl : l.Pairwise (fun x y => le x y = true)) :
    (insertBy le a l).Pairwise (fun x y => le x y = true) := by
  induction l with
  | nil => simp [insertBy]
  | cons b bs ih =>
    rw [List.pairwise_cons] at hl
    obtain ⟨hb, hbs⟩ := hl
    by_cases h : le a b = true
    · rw [insertBy, if_pos h, List.pairwise_cons]
      refine ⟨?_, List.pairwise_cons.mpr ⟨hb, hbs⟩⟩
      intro x hx
      rcases List.mem_cons.mp hx with rfl | hx2
      · exact h
      · exact htrans a b x h (hb x hx2)
    · rw [insertBy, if_neg h, List.pairwise_cons]
      refine ⟨?_, ih hbs⟩
      intro x hx
      have hx' : x ∈ a :: bs := (insertBy_perm le a bs).mem_iff.mp hx
      rcases List.mem_cons.mp hx' with rfl | hx2
      · rcases htot x b with hab | hba
        · exact absurd hab h
        · exact hba
      · exact hb x hx2

theorem sortBy_pairwise {α : Type} (le : α → α → Bool)
    (htot : ∀ a b, le a b = true ∨ le b a = true)
    (htrans : ∀ a b c, le a b = true → le b c = true → le a c = true)
    (l : List α) : (sortBy le l).Pairwise (fun x y => le x y = true) := by
  induction l with
  | nil => simp [sortBy]
  | cons a rest ih =>
    rw [sortBy]
    exact insertBy_pairwise le htot htrans a (sortBy le rest) ih

theorem insertName_mem (x : String) (ns : List String) (n : String) :
    x ∈ insertName ns n ↔ x ∈ ns ∨ x = n := by
  unfold insertName
  by_cases h : n ∈ ns
  · rw [if_pos h]
    constructor
    · exact Or.inl
    · rintro (h1 | rfl)
      · exact h1
      · exact h
  · rw [if_neg h]
    simp

theorem insertName_nodup (ns : List String) (n : String) (h : ns.Nodup) :
    (insertName ns n).Nodup := by
  unfold insertName
  by_cases hm : n ∈ ns
  · rw [if_pos hm]
    exact h
  · rw [if_neg hm]
    simp [List.nodup_append, h, hm]

theorem setList_core (l : List String) : ∀ acc : List String,
    (∀ x, x ∈ l.foldl insertName acc ↔ x ∈ acc ∨ x ∈ l) ∧
    (acc.Nodup → (l.foldl insertName acc).Nodup) := by
  induction l with
  | nil => intro acc; simp
  | cons n rest ih =>
    intro acc
    constructor
    · intro x
      rw [List.foldl_cons, (ih (insertName acc n)).1 x, insertName_mem]
      simp only [List.mem_cons]
      tauto
    · intro hacc
      rw [List.foldl_cons]
      exact (ih _).2 (insertName_nodup acc n hacc)

theorem setList_mem (l : List String) (x : String) : x ∈ setList l ↔ x ∈ l := by
  have := (setList_core l []).1 x
  simpa [setList] using this

theorem setList_nodup (l : List String) : (setList l).Nodup :=
  (setList_core l []).2 List.nodup_nil

theorem charListLe_total : ∀ a b, charListLe a b = true ∨ charListLe b a = true := by
  intro a
  induction a with
  | nil => intro b; left; cases b <;> rfl
  | cons c cs ih =>
    intro b
    cases b with
    | nil => right; rfl
    | cons d ds =>
      rcases lt_trichotomy c d with h | h | h
      · left
        rw [charListLe, if_pos h]
      · subst h
        rcases ih ds with h1 | h1
        · left
          rw [charListLe, if_neg (lt_irrefl c), if_pos rfl]
          exact h1
        · right
          rw [charListLe, if_neg (lt_irrefl c), if_pos rfl]
          exact h1
      · right
        rw [charListLe, if_pos h]

theorem charListLe_trans :
    ∀ a b c, charListLe a b = true → charListLe b c = true → charListLe a c = true := by
  intro a
  induction a with
  | nil => intro b c _ _; rfl
  | cons x xs ih =>
    intro b c hab hbc
    cases b with
    | nil => rw [charListLe] at hab; cases hab
    | cons y ys =>
      cases c with
      | nil => rw [charListLe] at hbc; cases hbc
      | cons z zs =>
        rcases lt_trichotomy x y with h1 | h1 | h1
        · rcases lt_trichotomy y z with h2 | h2 | h2
          · rw [charListLe, if_pos (lt_trans h1 h2)]
          · subst h2
            rw [charListLe, if_pos h1]
          · rw [charListLe, if_neg (lt_asymm h2),
              if_neg (by rintro rfl; exact lt_irrefl _ h2)] at hbc
            cases hbc
        · subst h1
          rcases lt_trichotomy x z with h2 | h2 | h2
          · rw [charListLe, if_pos h2]
          · subst h2
            rw [charListLe, if_neg (lt_irrefl x), if_pos rfl] at hab hbc ⊢
            exact ih ys zs hab hbc
          · rw [charListLe, if_neg (lt_asymm h2),
              if_neg (by rintro rfl; exact lt_irrefl _ h2)] at hbc
            cases hbc
        · rw [charListLe, if_neg (lt_asymm h1),
            if_neg (by rintro rfl; exact lt_irrefl _ h1)] at hab
          cases hab

theorem strLe_total (a b : String) : strLe a b = true ∨ strLe b a = true :=
  charListLe_total a.data b.data

theorem strLe_trans (a b c : String) (h1 : strLe a b = true) (h2 : strLe b c = true) :
    strLe a c = true :=
  charListLe_trans a.data b.data c.data h1 h2

theorem PRIORITY_TO_VALUE_bounds (p : Priority) :
    1 ≤ PRIORITY_TO_VALUE p ∧ PRIORITY_TO_VALUE p ≤ 3 := by
  cases p <;> simp [PRIORITY_TO_VALUE]

theorem story_sort_key_le_iff (a b : Issue)
    (ha : issue_number a < 10000) (hb : issue_number b < 10000) :
    (story_sort_key a ≤ story_sort_key b) ↔
      (PRIORITY_TO_VALUE b.priority < PRIORITY_TO_VALUE a.priority ∨
        (PRIORITY_TO_VALUE a.priority = PRIORITY_TO_VALUE b.priority ∧
          issue_number a ≤ issue_number b)) := by
  obtain ⟨ha1, ha3⟩ := PRIORITY_TO_VALUE_bounds a.priority
  obtain ⟨hb1, hb3⟩ := PRIORITY_TO_VALUE_bounds b.priority
  unfold story_sort_key
  omega

/-- Claim C6: the grouped report is ordered exactly as specified.  Feature
and policy sections appear by priority descending (Critical, Major, Low),
each group a permutation of the issues of that priority sorted by ascending
numeric issue key.  User stories are grouped under the distinct epic names
in lexicographic order, each group a permutation of that epic's stories
sorted by the composite key `(4 - priority_value) * 10000 + issue_number`,
which (for issue numbers below 10000) orders primarily by priority
descending and secondarily by numeric key ascending. -/
theorem C6_grouped_output :
    (∀ issues : List Issue,
       (priority_sections issues).map Prod.fst =
         [Priority.Critical, Priority.Major, Priority.Low] ∧
       ∀ pg ∈ priority_sections issues,
         pg.2.Pairwise (fun a b => issue_number a ≤ issue_number b) ∧
         pg.2.Perm (issues.filter (fun i => decide (i.priority = pg.1)))) ∧
    (∀ user_stories : List Issue,
       ((user_story_sections user_stories).map Prod.fst).Pairwise
         (fun a b => strLe a b = true) ∧
       ((user_story_sections user_stories).map Prod.fst).Nodup ∧
       (∀ e, e ∈ (user_story_sections user_stories).map Prod.fst ↔
          e ∈ user_stories.map (fun i => i.epic_name)) ∧
       ∀ eg ∈ user_story_sections user_stories,
         eg.2.Pairwise (fun a b => story_sort_key a ≤ story_sort_key b) ∧
         eg.2.Perm (user_stories.filter (fun i => decide (i.epic_name = eg.1))) ∧
         ((∀ s ∈ user_stories, issue_number s < 10000) →
           eg.2.Pairwise (fun a b =>
             PRIORITY_TO_VALUE b.priority < PRIORITY_TO_VALUE a.priority ∨
             (PRIORITY_TO_VALUE a.priority = PRIORITY_TO_VALUE b.priority ∧
               issue_number a ≤ issue_number b)))) := by
  have hnumtot : ∀ a b : Issue,
      (fun a b => decide (issue_number a ≤ issue_number b)) a b = true ∨
      (fun a b => decide (issue_number a ≤ issue_number b)) b a = true := by
    intro a b
    rcases Nat.le_total (issue_number a) (issue_number b) with h | h
    · left; simpa using h
    · right; simpa using h
  have hnumtrans : ∀ a b c : Issue,
      (fun a b => decide (issue_number a ≤ issue_number b)) a b = true →
      (fun a b => decide (issue_number a ≤ issue_number b)) b c = true →
      (fun a b => decide (issue_number a ≤ issue_number b)) a c = true := by
    intro a b c h1 h2
    simp only [decide_eq_true_iff] at h1 h2 ⊢
    exact le_trans h1 h2
  have hkeytot : ∀ a b : Issue,
      (fun a b => decide (story_sort_key a ≤ story_sort_key b)) a b = true ∨
      (fun a b => decide (story_sort_key a ≤ story_sort_key b)) b a = true := by
    intro a b
    rcases Nat.le_total (story_sort_key a) (story_sort_key b) with h | h
    · left; simpa using h
    · right; simpa using h
  have hkeytrans : ∀ a b c : Issue,
      (fun a b => decide (story_sort_key a ≤ story_sort_key b)) a b = true →
      (fun a b => decide (story_sort_key a ≤ story_sort_key b)) b c = true →
      (fun a b => decide (story_sort_key a ≤ story_sort_key b)) a c = true := by
    intro a b c h1 h2
    simp only [decide_eq_true_iff] at h1 h2 ⊢
    exact le_trans h1 h2
  constructor
  · intro issues
    constructor
    · rfl
    · intro pg hpg
      simp only [priority_sections, List.mem_map] at hpg
      obtain ⟨p, _, hp⟩ := hpg
      subst hp
      constructor
      · refine List.Pairwise.filter _ ?_
        exact (sortBy_pairwise _ hnumtot hnumtrans issues).imp
          (fun h => by simpa using h)
      · exact List.Perm.filter _ (sortBy_perm _ issues)
  · intro user_stories
    have hfst : (user_story_sections user_stories).map Prod.fst =
        epic_names_sorted user_stories := by
      simp only [user_story_sections, List.map_map]
      exact List.map_id _ ▸ rfl
    refine ⟨?_, ?_, ?_, ?_⟩
    · rw [hfst]
      exact sortBy_pairwise strLe strLe_total strLe_trans _
    · rw [hfst]
      exact ((sortBy_perm strLe _).nodup_iff).mpr (setList_nodup _)
    · intro e
      rw [hfst, epic_names_sorted, (sortBy_perm strLe _).mem_iff, setList_mem]
    · intro eg heg
      simp only [user_story_sections, List.mem_map] at heg
      obtain ⟨e, _, he⟩ := heg
      subst he
      have hsorted : (epicSection user_stories e).Pairwise
          (fun a b => story_sort_key a ≤ story_sort_key b) := by
        refine List.Pairwise.filter _ ?_
        exact (sortBy_pairwise _ hkeytot hkeytrans user_stories).imp
          (fun h => by simpa using h)
      refine ⟨hsorted, List.Perm.filter _ (sortBy_perm _ user_stories), ?_⟩
      intro hbound
      refine hsorted.imp_of_mem ?_
      intro a b ha hb hab
      have hmem : ∀ x : Issue, x ∈ epicSection user_stories e → x ∈ user_stories := by
        intro x hx
        have := (List.mem_filter.mp hx).1
        exact (sortBy_perm _ user_stories).mem_iff.mp this
      exact (story_sort_key_le_iff a b (hbound a (hmem a ha)) (hbound b (hmem b hb))).mp hab

/-- Claim C6 witness: the `Beta` epic group of the fixture stories is
ordered by priority descending then numeric key ascending. -/
theorem C6_witness :
    (epicSection [storyG1, storyG2, storyG3, storyG4] "Beta").Pairwise
      (fun a b =>
        PRIORITY_TO_VALUE b.priority < PRIORITY_TO_VALUE a.priority ∨
        (PRIORITY_TO_VALUE a.priority = PRIORITY_TO_VALUE b.priority ∧
          issue_number a ≤ issue_number b)) :=
  ((C6_grouped_output.2 [storyG1, storyG2, storyG3, storyG4]).2.2.2
    ("Beta", epicSection [storyG1, storyG2, storyG3, storyG4] "Beta")
    (by decide)).2.2 (by decide)

theorem effortStep_totals (st : EffortStats) (i : Issue) (p : Priority) :
    (effortStep st i).totals p =
      st.totals p + (if i.priority = p then daysOrZero i else 0) := by
  cases hd : i.days <;> by_cases h : p = i.priority <;>
    simp [effortStep, daysOrZero, hd, h, eq_comm]

theorem effortStep_num (st : EffortStats) (i : Issue) (p : Priority) :
    (effortStep st i).num p = st.num p + (if i.priority = p then 1 else 0) := by
  cases hd : i.days <;> by_cases h : p = i.priority <;>
    simp [effortStep, hd, h, eq_comm]

theorem effortStep_missing (st : EffortStats) (i : Issue) (p : Priority) :
    (effortStep st i).missing p =
      st.missing p ++
        (if i.priority = p ∧ i.days = none then [i.key] else []) := by
  cases hd : i.days <;> by_cases h : p = i.priority <;>
    simp [effortStep, hd, h, eq_comm]

theorem effort_foldl_totals (fs : List Issue) : ∀ (st0 : EffortStats) (p : Priority),
    (fs.foldl effortStep st0).totals p = st0.totals p + effortSumSpec fs p := by
  induction fs with
  | nil => intro st0 p; simp [effortSumSpec]
  | cons i rest ih =>
    intro st0 p
    rw [List.foldl_cons, ih, effortStep_totals]
    by_cases h : i.priority = p <;>
      simp [effortSumSpec, List.filter_cons, h, daysOrZero] <;> ring

theorem effort_foldl_num (fs : List Issue) : ∀ (st0 : EffortStats) (p : Priority),
    (fs.foldl effortStep st0).num p =
      st0.num p + (fs.filter (fun i => decide (i.priority = p))).length := by
  induction fs with
  | nil => intro st0 p; simp
  | cons i rest ih =>
    intro st0 p
    rw [List.foldl_cons, ih, effortStep_num]
    by_cases h : i.priority = p <;>
      simp [List.filter_cons, h] <;> ring

theorem effort_foldl_missing (fs : List Issue) : ∀ (st0 : EffortStats) (p : Priority),
    (fs.foldl effortStep st0).missing p = st0.missing p ++ missingSpec fs p := by
  induction fs with
  | nil => intro st0 p; simp [missingSpec]
  | cons i rest ih =>
    intro st0 p
    rw [List.foldl_cons, ih, effortStep_missing]
    rcases hd : i.days with _ | d <;> by_cases h : i.priority = p <;>
      simp [missingSpec, List.filter_cons, h, hd]

theorem add_effort_totals (fs : List Issue) (p : Priority) :
    (add_effort_estimates fs).totals p = effortSumSpec fs p := by
  rw [add_effort_estimates, effort_foldl_totals]
  simp

theorem add_effort_num (fs : List Issue) (p : Priority) :
    (add_effort_estimates fs).num p =
      (fs.filter (fun i => decide (i.priority = p))).length := by
  rw [add_effort_estimates, effort_foldl_num]
  simp

theorem add_effort_missing (fs : List Issue) (p : Priority) :
    (add_effort_estimates fs).missing p = missingSpec fs p := by
  rw [add_effort_estimates, effort_foldl_missing]
  simp

/-- Claim C7 (code bug evaluation): on the spec's own sample — two Critical
features with 1.5 and 2.0 estimated days — the aggregation is an exact pure
reduction internally (total 7/2 = 3.5, count 2, missing `[]`, equal to the
reference sum), but the number the report prints for the tier is `3`, not
`3.5`: the format string uses the integer conversion `%.1d` (an apparent
slip for `%.1f`), which truncates the float total. -/
theorem C7_effort_report_truncated :
    (add_effort_estimates [featE1, featE2]).totals Priority.Critical = 7 / 2 ∧
    (add_effort_estimates [featE1, featE2]).num Priority.Critical = 2 ∧
    (add_effort_estimates [featE1, featE2]).missing Priority.Critical = [] ∧
    effortSumSpec [featE1, featE2] Priority.Critical = 7 / 2 ∧
    reported_total (add_effort_estimates [featE1, featE2]) Priority.Critical = 3 ∧
    (3 : ℚ) ≠ 7 / 2 := by
  have ht : (add_effort_estimates [featE1, featE2]).totals Priority.Critical = 7 / 2 := by
    simp [add_effort_estimates, effortStep, featE1, featE2, List.foldl]
    norm_num
  refine ⟨ht, ?_, ?_, ?_, ?_, ?_⟩
  · simp [add_effort_estimates, effortStep, featE1, featE2, List.foldl]
  · simp [add_effort_estimates, effortStep, featE1, featE2, List.foldl]
  · simp [effortSumSpec, featE1, featE2, daysOrZero]
    norm_num
  · rw [reported_total, ht, pyIntOfRat, if_pos (by norm_num)]
    norm_num
  · norm_num

theorem parse_warned_zero (s : List Char) (h : (parse_timeestimate s).2 = true) :
    (parse_timeestimate s).1 = 0 := by
  unfold parse_timeestimate at h ⊢
  cases hp : parseNumber s with
  | none => rfl
  | some pair =>
    obtain ⟨t, rest⟩ := pair
    rw [hp] at h
    dsimp only at h ⊢
    split_ifs at h ⊢ <;> simp_all

/-- Claim C10: a Feature whose raw time-estimate text fails to parse gets
the value `0.0` with a warning rather than a failure, so it is treated as
having an estimate: it contributes exactly `0.0` to its priority tier's
effort total (removing it leaves the total unchanged) and its key is not
listed among the keys missing an estimate. -/
theorem C10_failed_estimate_counts_as_zero (s : List Char)
    (h : (parse_timeestimate s).2 = true) :
    (parse_timeestimate s).1 = 0 ∧
    ∀ (fs : List Issue) (i : Issue), i ∈ fs → (fs.map Issue.key).Nodup →
      i.days = some (parse_timeestimate s).1 →
      i.key ∉ (add_effort_estimates fs).missing i.priority ∧
      (add_effort_estimates fs).totals i.priority =
        (add_effort_estimates (fs.erase i)).totals i.priority := by
  have hz := parse_warned_zero s h
  refine ⟨hz, ?_⟩
  intro fs i hi hnd hdays
  rw [hz] at hdays
  constructor
  · rw [add_effort_missing, missingSpec]
    intro hmem
    simp only [List.mem_map] at hmem
    obtain ⟨j, hj, hjk⟩ := hmem
    rw [List.mem_filter] at hj
    obtain ⟨hjfs, hcond⟩ := hj
    have hji : j = i :=
      List.inj_on_of_nodup_map hnd hjfs hi hjk
    subst hji
    rw [hdays] at hcond
    simp at hcond
  · rw [add_effort_totals, add_effort_totals]
    have hperm : fs.Perm (i :: fs.erase i) := List.perm_cons_erase hi
    have hsum : effortSumSpec fs i.priority =
        effortSumSpec (i :: fs.erase i) i.priority := by
      unfold effortSumSpec
      exact List.Perm.sum_eq (List.Perm.map _ (List.Perm.filter _ hperm))
    rw [hsum]
    unfold effortSumSpec
    simp [List.filter_cons, daysOrZero, hdays]

/-- Claim C10 witness: the feature carrying the estimate parsed from the
unrecognized text `"3 fortnights"` is absent from the missing list and adds
nothing to its tier total. -/
theorem C10_witness :
    featE3.key ∉ (add_effort_estimates [featE3, feat1]).missing featE3.priority ∧
    (add_effort_estimates [featE3, feat1]).totals featE3.priority =
      (add_effort_estimates ([featE3, feat1].erase featE3)).totals featE3.priority :=
  (C10_failed_estimate_counts_as_zero ("3 fortnights".data) rfl).2
    [featE3, feat1] featE3 (by decide) (by decide) rfl

theorem dropWhile_length_le (p : Char → Bool) : ∀ (l : List Char),
    (List.dropWhile p l).length ≤ l.length := by
  intro l
  induction l with
  | nil => rw [List.dropWhile]
  | cons c cs ih =>
    rw [List.dropWhile]
    cases hp : p c with
    | true => exact le_trans ih (Nat.le_succ _)
    | false => exact le_refl _

theorem stripExact_length (tok : List Char) : ∀ (s rest : List Char),
    stripExact tok s = some rest → rest.length ≤ s.length := by
  induction tok with
  | nil =>
    intro s rest h
    rw [stripExact] at h
    injection h with h
    rw [h]
  | cons t ts ih =>
    intro s rest h
    cases s with
    | nil => rw [stripExact] at h; cases h
    | cons c cs =>
      rw [stripExact] at h
      by_cases hc : (c == t) = true
      · rw [if_pos hc] at h
        exact le_trans (ih cs rest h) (Nat.le_succ _)
      · rw [if_neg hc] at h
        cases h

theorem matchTokenWs_length (tok s rem : List Char)
    (h : matchTokenWs tok s = some rem) : rem.length < s.length := by
  rw [matchTokenWs] at h
  cases hst : stripExact tok s with
  | none => rw [hst] at h; cases h
  | some rest =>
    rw [hst] at h
    cases rest with
    | nil => cases h
    | cons c cs =>
      have h2 : cs.length + 1 ≤ s.length := stripExact_length tok s (c :: cs) hst
      have h' : (if pyWhitespace c = true then
          some (List.dropWhile pyWhitespace cs) else none) = some rem := h
      split at h'
      · injection h' with h'
        have h1 : rem.length ≤ cs.length := by
          rw [← h']
          exact dropWhile_length_le _ _
        omega
      · cases h'

theorem removeTokenGo_length_le (tok : List Char) : ∀ (fuel : Nat) (s : List Char),
    (removeTokenGo tok fuel s).length ≤ s.length := by
  intro fuel
  induction fuel with
  | zero => intro s; rw [removeTokenGo]
  | succ f ih =>
    intro s
    cases s with
    | nil => rw [removeTokenGo]
    | cons c cs =>
      rw [removeTokenGo]
      cases hm : matchTokenWs tok (c :: cs) with
      | some rem =>
        have h1 := matchTokenWs_length tok (c :: cs) rem hm
        have h2 := ih rem
        show (removeTokenGo tok f rem).length ≤ (c :: cs).length
        simp only [List.length_cons] at h1 ⊢
        omega
      | none =>
        show (c :: removeTokenGo tok f cs).length ≤ (c :: cs).length
        simp only [List.length_cons]
        exact Nat.succ_le_succ (ih cs)

theorem removeTokenGo_of_no_token (tok : List Char) : ∀ (fuel : Nat) (s : List Char),
    hasTokenWs tok s = false → removeTokenGo tok fuel s = s := by
  intro fuel
  induction fuel with
  | zero => intro s _; rw [removeTokenGo]
  | succ f ih =>
    intro s hno
    cases s with
    | nil => rw [removeTokenGo]
    | cons c cs =>
      rw [hasTokenWs, Bool.or_eq_false_iff] at hno
      obtain ⟨h1, h2⟩ := hno
      rw [removeTokenGo]
      cases hm : matchTokenWs tok (c :: cs) with
      | some rem => rw [hm] at h1; cases h1
      | none =>
        show c :: removeTokenGo tok f cs = c :: cs
        rw [ih cs h2]

theorem removeTokenGo_shrinks (tok : List Char) : ∀ (fuel : Nat) (s : List Char),
    s.length ≤ fuel → hasTokenWs tok s = true →
    (removeTokenGo tok fuel s).length < s.length := by
  intro fuel
  induction fuel with
  | zero =>
    intro s hf hyes
    cases s with
    | nil => rw [hasTokenWs] at hyes; cases hyes
    | cons c cs => simp at hf
  | succ f ih =>
    intro s hf hyes
    cases s with
    | nil => rw [hasTokenWs] at hyes; cases hyes
    | cons c cs =>
      rw [removeTokenGo]
      cases hm : matchTokenWs tok (c :: cs) with
      | some rem =>
        have h1 := matchTokenWs_length tok (c :: cs) rem hm
        have h2 := removeTokenGo_length_le tok f rem
        show (removeTokenGo tok f rem).length < (c :: cs).length
        simp only [List.length_cons] at h1 ⊢
        omega
      | none =>
        rw [hasTokenWs, hm, Option.isSome_none, Bool.false_or] at hyes
        have hcs : cs.length ≤ f := by
          simp only [List.length_cons] at hf
          omega
        have h3 := ih cs hcs hyes
        show (c :: removeTokenGo tok f cs).length < (c :: cs).length
        simp only [List.length_cons]
        omega

theorem removeToken_eq_iff (tok s : List Char) :
    removeToken tok s = s ↔ hasTokenWs tok s = false := by
  constructor
  · intro heq
    by_cases hyes : hasTokenWs tok s = true
    · have := removeTokenGo_shrinks tok s.length s (le_refl _) hyes
      rw [removeToken] at heq
      rw [heq] at this
      exact absurd this (lt_irrefl _)
    · simpa using hyes
  · intro hno
    rw [removeToken]
    exact removeTokenGo_of_no_token tok s.length s hno

/-- Claim C8 counterexample: the Feature record whose (normalized) summary
is `"A Feature: B"` does not begin with the token `"Feature:"`, yet
ingestion succeeds without error, because the substitution of the pattern
(token followed by whitespace) is unanchored and removes the mid-string
occurrence.  This refutes "the summary must begin with the literal prefix
token". -/
theorem C8_counterexample :
    featureSummaryNormalize ("A Feature: B".data) = .ok ("A B".data) ∧
    beginsWith ("Feature:".data) ("A Feature: B".data) = false :=
  ⟨rfl, rfl⟩

/-- Claim C8 (amended): ingestion of a Feature succeeds exactly when the
summary contains (anywhere, not only at the start) at least one occurrence
of the literal token `"Feature:"` followed by whitespace; every such
occurrence is removed, and the absence of any such occurrence is a fatal
error.  The same rule holds for Policy records with `"Policy:"`. -/
theorem C8_token_removal (s : List Char) :
    ((hasTokenWs ("Feature:".data) s = true →
        featureSummaryNormalize s = .ok (removeToken ("Feature:".data) s)) ∧
     (hasTokenWs ("Feature:".data) s = false →
        ∃ e, featureSummaryNormalize s = .error e)) ∧
    ((hasTokenWs ("Policy:".data) s = true →
        policySummaryNormalize s = .ok (removeToken ("Policy:".data) s)) ∧
     (hasTokenWs ("Policy:".data) s = false →
        ∃ e, policySummaryNormalize s = .error e)) := by
  constructor
  · constructor
    · intro hyes
      rw [featureSummaryNormalize, if_neg]
      intro heq
      rw [(removeToken_eq_iff _ s).mp heq] at hyes
      cases hyes
    · intro hno
      rw [featureSummaryNormalize, if_pos ((removeToken_eq_iff _ s).mpr hno)]
      exact ⟨_, rfl⟩
  · constructor
    · intro hyes
      rw [policySummaryNormalize, if_neg]
      intro heq
      rw [(removeToken_eq_iff _ s).mp heq] at hyes
      cases hyes
    · intro hno
      rw [policySummaryNormalize, if_pos ((removeToken_eq_iff _ s).mpr hno)]
      exact ⟨_, rfl⟩

/-- Claim C8 witness: both token rules evaluated on concrete summaries. -/
theorem C8_witness :
    featureSummaryNormalize ("Feature:  do stuff".data) =
      .ok (removeToken ("Feature:".data) ("Feature:  do stuff".data)) ∧
    ∃ e, policySummaryNormalize ("Feature: misfiled".data) = .error e :=
  ⟨(C8_token_removal ("Feature:  do stuff".data)).1.1 rfl,
   (C8_token_removal ("Feature: misfiled".data)).2.2 rfl⟩

theorem ensure_punct (d : List Char) :
    endsPunct (if endsPunct d then d else d ++ ['.']) = true := by
  by_cases h : endsPunct d = true
  · rw [if_pos h]
    exact h
  · rw [if_neg h]
    simp [endsPunct, List.getLast?_concat]

/-- Claim C9 counterexample: the raw summary `"Hello."` normalizes to
`"Hello"`, which does not end in terminal punctuation — the markup-to-text
conversion strips one trailing period and nothing re-appends one for the
summary — refuting "both the normalized summary and the normalized
description end in terminal punctuation". -/
theorem C9_counterexample :
    normalize_summary ("Hello.".data) = "Hello".data ∧
    endsPunct (normalize_summary ("Hello.".data)) = false :=
  ⟨rfl, rfl⟩

/-- Claim C9 (amended): only the normalized description always ends in
terminal punctuation — after markup conversion (and the summary fallback
when the raw description is absent) a period is appended unless the text
already ends in `?`, `!` or `.`.  The normalized summary receives no such
fix-up; one trailing period is in fact stripped from it, so a summary may
end unpunctuated. -/
theorem C9_description_punctuated (summaryHandled : List Char)
    (descriptionHandled : Option (List Char)) :
    endsPunct (normalize_description summaryHandled descriptionHandled) = true := by
  unfold normalize_description
  exact ensure_punct _

end JiraTools
